import Mathlib

/-!
Verification development for the TOON (Token-Oriented Object Notation) encoder.

The definitions below are a shallow embedding of `src/encode.ts` together with
the presets of `presets.ts` and the option record of `types.ts`.  JSON-like
runtime values are modelled by the inductive type `Value`; JavaScript `null`
and `undefined` are separate constructors (`vnull`, `vundefined`) because the
source distinguishes them syntactically even though it treats them alike.
Numbers are modelled as integers rendered in decimal, matching JavaScript
`String(n)` on integral values (the claims under verification do not depend
on floating-point formatting).  Strings are Lean `String`s; object literals
are insertion-ordered association lists, mirroring JavaScript property order.

Literal brace characters inside strings are written with the escapes
`\x7b` (left brace) and `\x7d` (right brace).
-/

namespace Toon

/-- JSON-like runtime values, the input domain of `encode`. -/
inductive Value where
  | vnull
  | vundefined
  | vbool (b : Bool)
  | vnum (n : Int)
  | vstr (s : String)
  | varr (items : List Value)
  | vobj (entries : List (String × Value))

/-- The three delimiters admitted by `EncodeOptions.delimiter` in `types.ts`. -/
inductive Delim where
  | comma
  | tab
  | pipe
deriving DecidableEq, Repr

/-- The delimiter as the one-character string used by the encoder. -/
def delimStr : Delim → String
  | .comma => ","
  | .tab => "\t"
  | .pipe => "|"

/-- `EncodeOptions` from `types.ts`.  `delimiter` is an `Option` because the
source distinguishes an unset delimiter (`undefined`) from a set one:
`encodePrimitive` defaults it to comma while `encodeTabularArray` defaults it
to tab.  A missing `tabular` behaves as `true` (`options.tabular !== false`),
so it is modelled by the default `true`. -/
structure EncodeOptions where
  compactBooleans : Bool
  compactNull : Bool
  readable : Bool
  delimiter : Option Delim
  tabular : Bool
  flatten : Bool
deriving DecidableEq, Repr

/-- The all-default options, i.e. calling `encode(value)` with `{}`. -/
def defaultOptions : EncodeOptions := ⟨false, false, false, none, true, false⟩

/-- Preset `forLLM` from `presets.ts`. -/
def forLLM : EncodeOptions := ⟨true, true, false, some Delim.tab, true, false⟩

/-- Preset `forLLMNested` from `presets.ts`. -/
def forLLMNested : EncodeOptions := ⟨true, true, false, some Delim.tab, true, true⟩

/-- Preset `forDebugging` from `presets.ts`. -/
def forDebugging : EncodeOptions := ⟨false, false, true, some Delim.comma, true, false⟩

/-- Preset `forCompatibility` from `presets.ts`. -/
def forCompatibility : EncodeOptions := ⟨false, false, false, some Delim.comma, true, false⟩

/-- Replace the `readable` field, keeping every other option. -/
def withReadable (o : EncodeOptions) (b : Bool) : EncodeOptions :=
  ⟨o.compactBooleans, o.compactNull, b, o.delimiter, o.tabular, o.flatten⟩

/-- The spread `{ ...options, delimiter }` used by `encodeTabularArray`. -/
def setDelim (o : EncodeOptions) (d : Delim) : EncodeOptions :=
  ⟨o.compactBooleans, o.compactNull, o.readable, some d, o.tabular, o.flatten⟩

/-- `isPlainObject` from `types.ts`, as a predicate on modelled values. -/
def isPlainObjectB : Value → Bool
  | .vobj _ => true
  | _ => false

/-- Whether a value is one of null/undefined/string/number/boolean, the test
used by `isUniformObjectArray` on every cell value. -/
def primitiveB : Value → Bool
  | .vnull => true
  | .vundefined => true
  | .vstr _ => true
  | .vnum _ => true
  | .vbool _ => true
  | _ => false

/-- The entry list of a value the encoder has checked to be a plain object
(the TypeScript cast `item as Record<string, unknown>`). -/
def asObj : Value → List (String × Value)
  | .vobj m => m
  | _ => []

/-- `Object.keys`, in insertion order. -/
def keysOf (m : List (String × Value)) : List String := m.map Prod.fst

/-- JavaScript property read `obj[key]`: the bound value, or `undefined` when
the key is absent. -/
def jsGet (m : List (String × Value)) (k : String) : Value :=
  match m.find? (fun p => p.1 == k) with
  | some p => p.2
  | none => .vundefined

/-- Whether the key is present (`key in obj`). -/
def hasKey (m : List (String × Value)) (k : String) : Bool :=
  m.any (fun p => p.1 == k)

/-! ### Character-list helpers -/

/-- Boolean prefix test on character lists. -/
def prefixOfB : List Char → List Char → Bool
  | [], _ => true
  | _ :: _, [] => false
  | a :: as, b :: bs => a == b && prefixOfB as bs

/-- JavaScript `String.prototype.includes` with a string argument:
substring containment on character lists. -/
def containsSubstr (p : List Char) : List Char → Bool
  | [] => prefixOfB p []
  | l@(_ :: t) => prefixOfB p l || containsSubstr p t

/-- Whether the string contains any character of `bad` (a regex character
class test such as `/[\t|:\[\]{}]/`). -/
def hasAnyOf (cs : List Char) (bad : List Char) : Bool :=
  cs.any (fun c => bad.contains c)

/-- The character class of the tab-delimiter branch of `needsQuoting`:
tab, pipe and the structural characters. -/
def tabBadChars : List Char := ['\t', '|', ':', '[', ']', '\x7b', '\x7d']

/-- The character class of the comma-delimiter branch of `needsQuoting`. -/
def commaBadChars : List Char := [',', ':', '[', ']', '\x7b', '\x7d']

/-- The character class of the pipe-delimiter branch of `needsQuoting`. -/
def pipeBadChars : List Char := ['|', ':', '[', ']', '\x7b', '\x7d']

/-- The optional leading minus (`-?`) of the numeric regex. -/
def dropMinus (l : List Char) : List Char :=
  match l with
  | c :: r => if c = '-' then r else c :: r
  | [] => []

/-- The optional fraction group (`(\.\d+)?`): consume a dot followed by at
least one digit, otherwise consume nothing. -/
def fracTail (r1 : List Char) : List Char :=
  match r1 with
  | c :: r =>
    if c = '.' then
      let p2 := r.span Char.isDigit
      if p2.1.isEmpty then r1 else p2.2
    else r1
  | [] => r1

/-- The optional exponent group (`([eE][+-]?\d+)?`): consume `e`/`E`, an
optional sign, and at least one digit, otherwise consume nothing. -/
def expTail (r2 : List Char) : List Char :=
  match r2 with
  | c :: r =>
    if c = 'e' ∨ c = 'E' then
      let r4 := match r with
        | s :: rr => if s = '+' ∨ s = '-' then rr else r
        | [] => r
      let p3 := r4.span Char.isDigit
      if p3.1.isEmpty then r2 else p3.2
    else r2
  | [] => r2

/-- The regex `/^-?\d+(\.\d+)?([eE][+-]?\d+)?$/` of `encode.ts`, executed as a
deterministic parser.  Greedy matching never needs to backtrack here because
each digit run is followed by a non-digit or the end of the string. -/
def numShaped (cs : List Char) : Bool :=
  let cs1 := dropMinus cs
  let p1 := cs1.span Char.isDigit
  if p1.1.isEmpty then false
  else (expTail (fracTail p1.2)).isEmpty

/-- The full-text literal test of `needsQuoting` and of the tabular cell
relaxation: the string is exactly `true`, `false`, `null`, or matches the
numeric-literal regex. -/
def isLiteralShaped (cs : List Char) : Bool :=
  cs == "true".data || cs == "false".data || cs == "null".data || numShaped cs

/-- `needsQuoting` from `encode.ts`.  The TypeScript parameter default for
`delimiter` is `'\t'`; call sites that omit the argument (the object-key
check in `encodeObject`) therefore use `Delim.tab` here. -/
def needsQuoting (s : String) (d : Delim) : Bool :=
  if s.data.isEmpty then true
  else
    match d with
    | .tab =>
      if hasAnyOf s.data tabBadChars then true
      else isLiteralShaped s.data
    | .comma =>
      if hasAnyOf s.data commaBadChars then true
      else if s.data.contains ' ' then true
      else isLiteralShaped s.data
    | .pipe =>
      if hasAnyOf s.data pipeBadChars then true
      else if s.data.contains ' ' then true
      else isLiteralShaped s.data

/-- `escapeString` from `encode.ts`: `str.replace(/"/g, '\\"')`. -/
def escapeString (s : String) : String :=
  ⟨s.data.flatMap (fun c => if c = '"' then ['\\', '"'] else [c])⟩

/-- Wrap in double quotes after escaping, the quoted form of a string. -/
def quoteStr (s : String) : String := "\"" ++ escapeString s ++ "\""

/-! ### Decimal rendering of numbers (JavaScript `String(n)`) -/

/-- The decimal digit character for `n < 10`. -/
def digitChar (n : Nat) : Char := Char.ofNat (48 + n)

/-- Decimal digits, most significant first; the fuel argument only bounds the
recursion depth and `natDigs` always supplies enough of it (a number `n` has
at most `n + 1` decimal digits). -/
def natDigsAux : Nat → Nat → List Char
  | 0, _ => []
  | fuel + 1, n =>
    if n < 10 then [digitChar n]
    else natDigsAux fuel (n / 10) ++ [digitChar (n % 10)]

/-- Decimal digits of a natural number, most significant first. -/
def natDigs (n : Nat) : List Char := natDigsAux (n + 1) n

/-- Decimal rendering of a natural number. -/
def natStr (n : Nat) : String := ⟨natDigs n⟩

/-- Decimal rendering of an integer. -/
def intStr (n : Int) : String :=
  if n < 0 then "-" ++ natStr n.natAbs else natStr n.natAbs

/-- `Array.prototype.join` / the `.join(sep)` calls of `encode.ts`. -/
def joinSep (sep : String) : List String → String
  | [] => ""
  | [x] => x
  | x :: xs => x ++ sep ++ joinSep sep xs


/-! ### The fallback `String(value)` coercion of `encodePrimitive` -/

mutual
/-- JavaScript `String(value)`.  Only the array/object cases are ever reached
from `encodePrimitive` (via the flattener storing an array verbatim); the
other cases are included for completeness of the coercion. -/
def jsStringOfValue : Value → String
  | .vnull => "null"
  | .vundefined => "undefined"
  | .vbool b => if b then "true" else "false"
  | .vnum n => intStr n
  | .vstr s => s
  | .varr l => joinSep "," (jsStringsOfList l)
  | .vobj _ => "[object Object]"

/-- `Array.prototype.toString` renders `null`/`undefined` elements as empty
strings and joins the rest with commas. -/
def jsStringsOfList : List Value → List String
  | [] => []
  | .vnull :: xs => "" :: jsStringsOfList xs
  | .vundefined :: xs => "" :: jsStringsOfList xs
  | x :: xs => jsStringOfValue x :: jsStringsOfList xs
end

/-- `encodePrimitive` from `encode.ts`.  For strings the delimiter handed to
the quoting oracle is `options.delimiter || ','`. -/
def encodePrimitive (v : Value) (o : EncodeOptions) : String :=
  match v with
  | .vnull => if o.compactNull then "~" else "null"
  | .vundefined => if o.compactNull then "~" else "null"
  | .vbool b =>
    if o.compactBooleans then (if b then "1" else "0")
    else (if b then "true" else "false")
  | .vnum n => intStr n
  | .vstr s =>
    if needsQuoting s (o.delimiter.getD Delim.comma) then quoteStr s else s
  | v => jsStringOfValue v

/-! ### Key shortening and flattening -/

/-- The context-gated shortcut table of `shortenKey`. -/
def itemShortcut (k : String) : Option String :=
  if k = "items" then some "i"
  else if k = "item" then some "i"
  else if k = "sku" then some "s"
  else if k = "quantity" then some "q"
  else if k = "price" then some "p"
  else none

/-- The general shortcut table of `shortenKey`. -/
def generalShortcut (k : String) : String :=
  if k = "items" then "i"
  else if k = "item" then "i"
  else if k = "customer" then "c"
  else if k = "quantity" then "q"
  else if k = "price" then "p"
  else if k = "orderId" then "oid"
  else if k = "status" then "st"
  else if k = "total" then "t"
  else if k = "name" then "n"
  else if k = "email" then "e"
  else if k = "sku" then "sku"
  else k

/-- `shortenKey` from `encode.ts`. -/
def shortenKey (k : String) (ctx : String) : String :=
  if containsSubstr "item".data ctx.data || containsSubstr "i".data ctx.data then
    match itemShortcut k with
    | some v => v
    | none => generalShortcut k
  else generalShortcut k

/-- JavaScript assignment `obj[k] = v` on an insertion-ordered object: update
in place when the key exists, append otherwise. -/
def insertKV (m : List (String × Value)) (k : String) (v : Value) :
    List (String × Value) :=
  if m.any (fun p => p.1 == k) then
    m.map (fun p => if p.1 == k then (p.1, v) else p)
  else m ++ [(k, v)]

/-- `Object.assign(target, source)`: assign each source entry in order. -/
def assignAll (m src : List (String × Value)) : List (String × Value) :=
  src.foldl (fun a p => insertKV a p.1 p.2) m

mutual
/-- `flattenObject` from `encode.ts`: flatten a nested object into a flat
insertion-ordered mapping with shortened, underscore-joined keys. -/
def flattenObject (entries : List (String × Value)) (pfx : String)
    (maxArrayDepth : Nat) : List (String × Value) :=
  flattenEntries entries pfx maxArrayDepth []
termination_by (sizeOf entries, 1)

/-- The `for (const [key, value] of Object.entries(obj))` loop, threading the
accumulated flat object. -/
def flattenEntries : List (String × Value) → String → Nat →
    List (String × Value) → List (String × Value)
  | [], _, _, acc => acc
  | (k, v) :: rest, pfx, d, acc =>
    flattenEntries rest pfx d (flattenValue k v pfx d acc)
termination_by l _ _ _ => (sizeOf l, 0)

/-- One loop body of `flattenObject`: dispatch on the value shape. -/
def flattenValue (k : String) (v : Value) (pfx : String) (d : Nat)
    (acc : List (String × Value)) : List (String × Value) :=
  let shortKey := shortenKey k pfx
  let newKey := if pfx ≠ "" then pfx ++ "_" ++ shortKey else shortKey
  match v with
  | .vnull => insertKV acc newKey v
  | .vundefined => insertKV acc newKey v
  | .varr items =>
    if items.length > 0 && d > 0 then flattenItems items 0 shortKey pfx d acc
    else insertKV acc newKey v
  | .vobj m => assignAll acc (flattenObject m newKey d)
  | _ => insertKV acc newKey v
termination_by (sizeOf v, 3)

/-- The `value.forEach((item, index) => ...)` loop for array values. -/
def flattenItems : List Value → Nat → String → String → Nat →
    List (String × Value) → List (String × Value)
  | [], _, _, _, _, acc => acc
  | item :: rest, idx, shortKey, pfx, d, acc =>
    let arrayPrefix :=
      if pfx ≠ "" then pfx ++ "_" ++ shortKey ++ natStr idx
      else shortKey ++ natStr idx
    let acc2 := match item with
      | .vobj m => assignAll acc (flattenObject m arrayPrefix (d - 1))
      | .varr sub => flattenSubItems sub 0 idx shortKey pfx d acc
      | _ => insertKV acc arrayPrefix item
    flattenItems rest (idx + 1) shortKey pfx d acc2
termination_by l _ _ _ _ _ => (sizeOf l, 2)

/-- The `item.forEach((subItem, subIndex) => ...)` loop for nested arrays. -/
def flattenSubItems : List Value → Nat → Nat → String → String → Nat →
    List (String × Value) → List (String × Value)
  | [], _, _, _, _, _, acc => acc
  | sub :: rest, subIdx, idx, shortKey, pfx, d, acc =>
    let nestedPrefix :=
      if pfx ≠ "" then pfx ++ "_" ++ shortKey ++ natStr idx ++ "_" ++ natStr subIdx
      else shortKey ++ natStr idx ++ "_" ++ natStr subIdx
    let acc2 := match sub with
      | .vobj m => assignAll acc (flattenObject m nestedPrefix (d - 1))
      | _ => insertKV acc nestedPrefix sub
    flattenSubItems rest (subIdx + 1) idx shortKey pfx d acc2
termination_by l _ _ _ _ _ _ => (sizeOf l, 2)
end

/-- One `Set.add`: keep the accumulator when the key is already present,
append it otherwise. -/
def insKey (acc : List String) (k : String) : List String :=
  if acc.contains k then acc else acc ++ [k]

/-- The key union of the flatten path of `encodeArray`: a JavaScript `Set`
filled across all flattened rows, i.e. first-seen order, no duplicates. -/
def unionKeys (rows : List (List (String × Value))) : List String :=
  rows.foldl (fun acc row => (keysOf row).foldl insKey acc) []

/-- Backfilling of one flattened row: `key in obj ? obj[key] : null` for each
unioned key, in key order. -/
def backfillRow (keys : List String) (row : List (String × Value)) :
    List (String × Value) :=
  keys.map (fun k => (k, if hasKey row k then jsGet row k else Value.vnull))

/-! ### Uniformity detection -/

/-- The result record of `isUniformObjectArray`. -/
structure UniformityVerdict where
  isUniform : Bool
  keys : Option (List String)
deriving DecidableEq, Repr

/-- `isUniformObjectArray` from `encode.ts`. -/
def isUniformObjectArray (arr : List Value) : UniformityVerdict :=
  match arr with
  | [] => ⟨false, none⟩
  | x :: _ =>
    if !(arr.all isPlainObjectB) then ⟨false, none⟩
    else
      let keys := keysOf (asObj x)
      let allSameKeys := arr.all (fun item =>
        let itemKeys := keysOf (asObj item)
        itemKeys.length == keys.length && keys.all (fun k => itemKeys.contains k))
      if !allSameKeys then ⟨false, none⟩
      else
        let allPrimitives := arr.all (fun item =>
          keys.all (fun k => primitiveB (jsGet (asObj item) k)))
        ⟨allPrimitives, if allPrimitives then some keys else none⟩

/-! ### Tabular rendering -/

/-- Head-character test (`encoded.startsWith('"')` is the only use). -/
def startsWithCh (s : String) (c : Char) : Bool := s.data.head? == some c

/-- Last-character test (`encoded.endsWith('"')` is the only use). -/
def endsWithCh (s : String) (c : Char) : Bool := s.data.getLast? == some c

/-- JavaScript `encoded.slice(1, -1)`: drop the first and last characters. -/
def slice1m1 (s : String) : String := ⟨(s.data.drop 1).dropLast⟩

/-- The per-cell encoding of `encodeTabularArray`, including the de-quoting
relaxation: a quoted value whose inner text has no tab, newline or double
quote and is not literal-shaped is emitted without its quotes. -/
def tabularCell (delim : Delim) (o : EncodeOptions) (v : Value) : String :=
  let encoded := encodePrimitive v (setDelim o delim)
  if startsWithCh encoded '"' && endsWithCh encoded '"' then
    let unquoted := slice1m1 encoded
    if !(unquoted.data.contains '\t') && !(unquoted.data.contains '\n') &&
        !(unquoted.data.contains '"') then
      if !(numShaped unquoted.data) && unquoted != "true" && unquoted != "false" &&
          unquoted != "null" then
        unquoted
      else encoded
    else encoded
  else encoded

/-- The data rows of `encodeTabularArray`: one delimiter-joined line of
encoded cells per object. -/
def tabularRowStrings (objs : List (List (String × Value))) (keys : List String)
    (o : EncodeOptions) : List String :=
  let delim := o.delimiter.getD Delim.tab
  objs.map (fun obj =>
    joinSep (delimStr delim) (keys.map (fun k => tabularCell delim o (jsGet obj k))))

/-- `encodeTabularArray` from `encode.ts`.  The delimiter defaults to tab when
unset; with a non-empty `keyName` the output is the semantic header
`keyName[count]{keys}:` followed by the newline-joined rows, with an empty
`keyName` it is the delimiter-joined column names followed by the rows. -/
def encodeTabularArray (objs : List (List (String × Value))) (keys : List String)
    (keyName : String) (o : EncodeOptions) : String :=
  let delim := o.delimiter.getD Delim.tab
  let dataHeader := joinSep (delimStr delim) keys
  let rows := tabularRowStrings objs keys o
  if keyName ≠ "" then
    keyName ++ "[" ++ natStr objs.length ++ "]\x7b" ++ joinSep "," keys ++
      "\x7d:" ++ "\n" ++ joinSep "\n" rows
  else
    dataHeader ++ "\n" ++ joinSep "\n" rows

/-- The key encoding of `encodeObject`: quote when the key contains a space
or when `needsQuoting(key)` holds with its parameter-default tab delimiter. -/
def encodedKeyStr (k : String) : String :=
  if k.data.contains ' ' || needsQuoting k Delim.tab then quoteStr k else k

/-- The syntactic check `encodeObject` applies to an encoded array value:
contains a newline, a left brace, and a right brace directly followed by a
colon.  Every keyed tabular block satisfies it, but so do some non-tabular
list forms. -/
def tabularBlockHeuristic (s : String) : Bool :=
  s.data.contains '\n' && s.data.contains '\x7b' &&
    containsSubstr "\x7d:".data s.data

/-! ### The recursive encoders -/

mutual
/-- `encodeArray` from `encode.ts`: `[0]` for empty arrays; when tabular mode
is on, the flatten path or the uniform tabular path; otherwise the
count-prefixed list form. -/
def encodeArray (arr : List Value) (keyName : String) (o : EncodeOptions) :
    String :=
  if arr.isEmpty then "[0]"
  else if o.tabular then
    if o.flatten && arr.all isPlainObjectB then
      let fl := arr.map (fun v => flattenObject (asObj v) "" 10)
      let allKeys := unionKeys fl
      encodeTabularArray (fl.map (fun row => backfillRow allKeys row)) allKeys
        keyName o
    else
      match isUniformObjectArray arr with
      | ⟨true, some ks⟩ => encodeTabularArray (arr.map asObj) ks keyName o
      | _ => listForm arr o
  else listForm arr o

/-- The non-tabular list form `[count]elt,elt,...` of `encodeArray`. -/
def listForm (arr : List Value) (o : EncodeOptions) : String :=
  "[" ++ natStr arr.length ++ "]" ++ (if o.readable then " " else "") ++
    joinSep (if o.readable then ", " else ",") (encodeListParts arr o)

/-- The `arr.map(...)` of the list form: nested arrays recurse with an empty
key name, objects are brace-wrapped, the rest goes to `encodePrimitive`. -/
def encodeListParts : List Value → EncodeOptions → List String
  | [], _ => []
  | x :: xs, o =>
    (match x with
      | .varr a => encodeArray a "" o
      | .vobj m => "\x7b" ++ encodeObject m o ++ "\x7d"
      | v => encodePrimitive v o) :: encodeListParts xs o

/-- `encodeObject` from `encode.ts`: empty object renders as the empty
string, otherwise the separator-joined entry encodings. -/
def encodeObject (entries : List (String × Value)) (o : EncodeOptions) :
    String :=
  if entries.isEmpty then ""
  else joinSep (if o.readable then ", " else ",") (encodePairs entries o)

/-- The `entries.map(...)` of `encodeObject`. -/
def encodePairs : List (String × Value) → EncodeOptions → List String
  | [], _ => []
  | (k, v) :: rest, o => encodeEntry k v o :: encodePairs rest o

/-- One entry of `encodeObject`.  The key is quoted when it contains a space
or when `needsQuoting(key)` holds — the TypeScript call omits the delimiter
argument, so the oracle runs with its parameter default, the tab delimiter.
An array value whose encoding contains a newline, a left brace and the
two-character substring of a right brace followed by a colon is emitted
as-is (the tabular semantic header already names the key); any other array
value is the key concatenated directly with the bracketed list. -/
def encodeEntry (k : String) (v : Value) (o : EncodeOptions) : String :=
  let encodedKey := encodedKeyStr k
  match v with
  | .varr a =>
    let arrayStr := encodeArray a k o
    if tabularBlockHeuristic arrayStr then
      arrayStr
    else encodedKey ++ arrayStr
  | .vobj m =>
    let nested := encodeObject m o
    if nested == "" then encodedKey
    else encodedKey ++ "\x7b" ++ nested ++ "\x7d"
  | v =>
    encodedKey ++ ":" ++ (if o.readable then " " else "") ++ encodePrimitive v o
end

/-- `encode` from `encode.ts`, the public entry point. -/
def encode (v : Value) (o : EncodeOptions) : String :=
  match v with
  | .vnull => if o.compactNull then "~" else "null"
  | .vundefined => if o.compactNull then "~" else "null"
  | .varr l => encodeArray l "" o
  | .vobj m => encodeObject m o
  | v => encodePrimitive v o


/-! ### Spec-side measurement helpers

`splitChar` is the conformance-test notion of splitting a text at every
occurrence of a separator character (JavaScript `text.split(sep)`), used by
the claims that count rows and elements. -/

/-- Split a character list at every occurrence of `c`. -/
def splitChar (c : Char) : List Char → List (List Char)
  | [] => [[]]
  | x :: xs =>
    let r := splitChar c xs
    if x = c then [] :: r
    else
      match r with
      | [] => [[x]]
      | h :: t => (x :: h) :: t

/-- `joinSep` at the character-list level. -/
def joinChars (sep : List Char) : List (List Char) → List Char
  | [] => []
  | [x] => x
  | x :: xs => x ++ sep ++ joinChars sep xs

theorem splitChar_ne_nil (c : Char) (l : List Char) : splitChar c l ≠ [] := by
  induction l with
  | nil => simp [splitChar]
  | cons x xs ih =>
    simp only [splitChar]
    split
    · simp
    · cases h : splitChar c xs with
      | nil => simp
      | cons h t => simp

theorem splitChar_of_not_mem {c : Char} {l : List Char} (h : c ∉ l) :
    splitChar c l = [l] := by
  induction l with
  | nil => rfl
  | cons x xs ih =>
    have hx : ¬ x = c := by
      intro e
      exact h (by simp [e])
    have hxs : c ∉ xs := fun m => h (by simp [m])
    simp only [splitChar, if_neg hx, ih hxs]

theorem splitChar_append_sep {c : Char} {x : List Char} (h : c ∉ x)
    (rest : List Char) :
    splitChar c (x ++ c :: rest) = x :: splitChar c rest := by
  induction x with
  | nil => simp [splitChar]
  | cons a as ih =>
    have ha : ¬ a = c := by
      intro e
      exact h (by simp [e])
    have has : c ∉ as := fun m => h (by simp [m])
    simp only [List.cons_append, splitChar, if_neg ha]
    have h2 : as.append (c :: rest) = as ++ c :: rest := rfl
    rw [h2, ih has]

theorem splitChar_joinChars {c : Char} :
    ∀ ls : List (List Char), ls ≠ [] → (∀ x ∈ ls, c ∉ x) →
      splitChar c (joinChars [c] ls) = ls := by
  intro ls
  induction ls with
  | nil => intro h; exact absurd rfl h
  | cons x xs ih =>
    intro _ hmem
    cases xs with
    | nil =>
      simpa [joinChars] using splitChar_of_not_mem (hmem x (by simp))
    | cons y ys =>
      have hx : c ∉ x := hmem x (by simp)
      have step : x ++ [c] ++ joinChars [c] (y :: ys) =
          x ++ c :: joinChars [c] (y :: ys) := by simp
      calc splitChar c (joinChars [c] (x :: y :: ys))
          = splitChar c (x ++ c :: joinChars [c] (y :: ys)) := by
            simp [joinChars]
        _ = x :: splitChar c (joinChars [c] (y :: ys)) :=
            splitChar_append_sep hx _
        _ = x :: (y :: ys) := by
            rw [ih (by simp) (fun z hz => hmem z (by simp [hz]))]

theorem joinSep_data (sep : String) :
    ∀ l : List String, (joinSep sep l).data = joinChars sep.data (l.map String.data) := by
  intro l
  induction l with
  | nil => rfl
  | cons x xs ih =>
    cases xs with
    | nil => rfl
    | cons y ys =>
      simp only [joinSep, joinChars, List.map_cons]
      rw [String.data_append, String.data_append, ih]
      simp [joinChars]

theorem joinChars_length {c : Char} :
    ∀ ls : List (List Char), ls ≠ [] → (∀ x ∈ ls, c ∉ x) →
      (splitChar c (joinChars [c] ls)).length = ls.length := by
  intro ls h1 h2
  rw [splitChar_joinChars ls h1 h2]

/-! ### Claim C9: compact encodings of booleans and null -/

/-- Claim C9: with `compactBooleans` the booleans encode as `1`/`0`, with
`compactNull` null encodes as `~`; with the flags absent the outputs are the
standard literals, and `undefined` encodes exactly like `null`. -/
theorem claimC9 :
    encode (.vbool true) ⟨true, false, false, none, true, false⟩ = "1" ∧
    encode (.vbool false) ⟨true, false, false, none, true, false⟩ = "0" ∧
    encode .vnull ⟨false, true, false, none, true, false⟩ = "~" ∧
    encode (.vbool true) defaultOptions = "true" ∧
    encode (.vbool false) defaultOptions = "false" ∧
    encode .vnull defaultOptions = "null" ∧
    (∀ o : EncodeOptions, encode .vundefined o = encode .vnull o) := by
  refine ⟨rfl, rfl, rfl, rfl, rfl, rfl, ?_⟩
  intro o
  rfl


/-! ### Claim C5: quoting of object keys -/

/-- Counterexample to claim C5.  The claim predicts that a key containing a
comma is quoted, because the quoting oracle for the comma delimiter demands
it; but `encodeObject` calls `needsQuoting(key)` without a delimiter argument,
so the oracle runs in tab mode and the key `a,b` is emitted verbatim. -/
theorem claimC5_cex :
    needsQuoting "a,b" Delim.comma = true ∧
    encodeObject [("a,b", .vnum 1)] defaultOptions = "a,b:1" ∧
    ¬ encodeObject [("a,b", .vnum 1)] defaultOptions =
        quoteStr "a,b" ++ ":" ++ encodePrimitive (.vnum 1) defaultOptions := by
  have h : encodeObject [("a,b", .vnum 1)] defaultOptions = "a,b:1" := by
    simp [encodeObject, encodePairs, encodeEntry, encodedKeyStr, joinSep,
      needsQuoting, hasAnyOf, tabBadChars, isLiteralShaped, numShaped,
      dropMinus, fracTail, expTail, encodePrimitive, intStr, natStr, natDigs,
      natDigsAux, digitChar, defaultOptions]
  refine ⟨by decide, h, ?_⟩
  rw [h]
  decide



/-! ### Claim C4: count honesty of the list form -/

/-- The exact conditions under which `encodeArray` renders the bracketed
list form: a non-empty array for which tabular mode is off, or for which
neither the flatten path nor the uniform path fires. -/
def listFormCond (arr : List Value) (o : EncodeOptions) : Prop :=
  arr ≠ [] ∧
  (o.tabular = false ∨
    ((o.flatten = false ∨ arr.all isPlainObjectB = false) ∧
      (isUniformObjectArray arr).isUniform = false))

theorem encodeListParts_length (arr : List Value) (o : EncodeOptions) :
    (encodeListParts arr o).length = arr.length := by
  induction arr with
  | nil => simp [encodeListParts]
  | cons x xs ih => cases x <;> simp [encodeListParts, ih]

theorem encodeArray_eq_listForm (arr : List Value) (kn : String)
    (o : EncodeOptions) (h : listFormCond arr o) :
    encodeArray arr kn o = listForm arr o := by
  obtain ⟨hne, hrest⟩ := h
  have hEmpty : arr.isEmpty = false := by
    cases arr with
    | nil => exact absurd rfl hne
    | cons a as => rfl
  rw [encodeArray]
  rw [hEmpty]
  simp only [Bool.false_eq_true, if_false]
  cases htab : o.tabular with
  | false => simp
  | true =>
    simp only [if_true]
    rcases hrest with hrest | ⟨hfl, huni⟩
    · rw [htab] at hrest; cases hrest
    · have hguard : (o.flatten && arr.all isPlainObjectB) = false := by
        rcases hfl with hfl | hfl <;> simp [hfl]
      rw [hguard]
      simp only [Bool.false_eq_true, if_false]
      rcases hu : isUniformObjectArray arr with ⟨iu, ks⟩
      rw [hu] at huni
      simp only at huni
      subst huni
      cases ks <;> rfl

/-- Counterexample to claim C4 as stated: for the array `[[1,2],3]` the list
form is `[2][2]1,2,3`, and splitting the body `[2]1,2,3` at the top-level
separator `,` yields three pieces, not the promised two — the inner array's
own commas are indistinguishable from the top-level ones. -/
theorem claimC4_cex :
    encodeArray [.varr [.vnum 1, .vnum 2], .vnum 3] "" defaultOptions =
      "[2]" ++ "[2]1,2,3" ∧
    ([Value.varr [.vnum 1, .vnum 2], .vnum 3] : List Value).length = 2 ∧
    (splitChar ',' ("[2]1,2,3").data).length = 3 := by
  refine ⟨?_, rfl, by decide⟩
  simp [encodeArray, listForm, encodeListParts, isUniformObjectArray,
    isPlainObjectB, encodePrimitive, intStr, natStr, natDigsAux, natDigs,
    digitChar, joinSep, defaultOptions]

/-- Claim C4, amended: the body of the list form is the separator-join of
exactly `N` element encodings, and splitting the body by the separator
recovers those `N` elements provided no element encoding itself contains the
separator character (quoted strings containing the delimiter, nested
multi-element arrays and nested objects may violate that proviso). -/
theorem claimC4_amended (arr : List Value) (kn : String) (o : EncodeOptions)
    (h : listFormCond arr o) :
    encodeArray arr kn o =
      "[" ++ natStr arr.length ++ "]" ++ (if o.readable then " " else "") ++
        joinSep (if o.readable then ", " else ",") (encodeListParts arr o) ∧
    (encodeListParts arr o).length = arr.length ∧
    (o.readable = false →
      (∀ p ∈ encodeListParts arr o, ',' ∉ p.data) →
      splitChar ',' (joinSep "," (encodeListParts arr o)).data =
        (encodeListParts arr o).map String.data) := by
  refine ⟨?_, encodeListParts_length arr o, ?_⟩
  · rw [encodeArray_eq_listForm arr kn o h, listForm]
  · intro _ hmem
    rw [joinSep_data]
    have hc : ("," : String).data = [','] := rfl
    rw [hc]
    apply splitChar_joinChars
    · have hlen := encodeListParts_length arr o
      intro hmap
      apply h.1
      have : (encodeListParts arr o) = [] := by
        cases he : encodeListParts arr o with
        | nil => rfl
        | cons p ps => rw [he] at hmap; cases hmap
      rw [this] at hlen
      cases arr with
      | nil => rfl
      | cons a as => simp at hlen
    · intro x hx
      obtain ⟨p, hp, rfl⟩ := List.mem_map.mp hx
      exact hmem p hp

/-- Witness for the amended claim C4 on the flat array `[1,2,3]`. -/
theorem claimC4_amended_witness :
    encodeArray [.vnum 1, .vnum 2, .vnum 3] "" defaultOptions =
      "[" ++ natStr 3 ++ "]" ++ (if defaultOptions.readable then " " else "") ++
        joinSep (if defaultOptions.readable then ", " else ",")
          (encodeListParts [.vnum 1, .vnum 2, .vnum 3] defaultOptions) :=
  (claimC4_amended [.vnum 1, .vnum 2, .vnum 3] "" defaultOptions
    ⟨List.cons_ne_nil _ _, Or.inr ⟨Or.inl rfl, by decide⟩⟩).1


/-! ### Claim C3: characterization of the uniformity detector -/

/-- The first element's keys in insertion order (the canonical column list). -/
def firstKeys (arr : List Value) : List String :=
  match arr with
  | [] => []
  | x :: _ => keysOf (asObj x)

/-- The uniformity conditions exactly as claim C3 states them: non-empty,
all plain objects, per-element key-count equality with the first element
plus containment of all of the first element's keys, and primitive values
under every canonical key in every element. -/
def UniformSpec (arr : List Value) : Prop :=
  arr ≠ [] ∧
  (∀ v ∈ arr, isPlainObjectB v = true) ∧
  (∀ v ∈ arr, (keysOf (asObj v)).length = (firstKeys arr).length ∧
    ∀ k ∈ firstKeys arr, k ∈ keysOf (asObj v)) ∧
  (∀ v ∈ arr, ∀ k ∈ firstKeys arr, primitiveB (jsGet (asObj v) k) = true)

/-- Claim C3: `isUniformObjectArray` returns `isUniform = true` together
with the first element's keys in insertion order exactly when the array is
non-empty, every element is a plain object, every element has the same
number of keys as the first and contains each of the first element's keys,
and every value under every canonical key in every element is
null/undefined/string/number/boolean; in every other case it returns
`isUniform = false` with no key list. -/
theorem claimC3 (arr : List Value) :
    (UniformSpec arr → isUniformObjectArray arr = ⟨true, some (firstKeys arr)⟩) ∧
    (¬ UniformSpec arr → isUniformObjectArray arr = ⟨false, none⟩) := by
  cases arr with
  | nil => exact ⟨fun h => absurd rfl h.1, fun _ => rfl⟩
  | cons x xs =>
    have hobj_iff : ((x :: xs).all isPlainObjectB = true) ↔
        (∀ v ∈ x :: xs, isPlainObjectB v = true) := List.all_eq_true
    have hsame_iff : ((x :: xs).all (fun item =>
          (keysOf (asObj item)).length == (keysOf (asObj x)).length &&
            (keysOf (asObj x)).all (fun k => (keysOf (asObj item)).contains k)) = true) ↔
        (∀ v ∈ x :: xs, (keysOf (asObj v)).length = (firstKeys (x :: xs)).length ∧
          ∀ k ∈ firstKeys (x :: xs), k ∈ keysOf (asObj v)) := by
      rw [List.all_eq_true]
      apply forall_congr'
      intro v
      apply imp_congr Iff.rfl
      rw [Bool.and_eq_true, beq_iff_eq, List.all_eq_true]
      apply and_congr Iff.rfl
      apply forall_congr'
      intro k
      apply imp_congr Iff.rfl
      exact List.elem_iff
    have hprim_iff : ((x :: xs).all (fun item =>
          (keysOf (asObj x)).all (fun k => primitiveB (jsGet (asObj item) k))) = true) ↔
        (∀ v ∈ x :: xs, ∀ k ∈ firstKeys (x :: xs),
          primitiveB (jsGet (asObj v) k) = true) := by
      rw [List.all_eq_true]
      apply forall_congr'
      intro v
      apply imp_congr Iff.rfl
      exact List.all_eq_true
    constructor
    · intro h
      obtain ⟨-, h1, h2, h3⟩ := h
      have b1 := hobj_iff.mpr h1
      have b2 := hsame_iff.mpr h2
      have b3 := hprim_iff.mpr h3
      simp only [isUniformObjectArray, b1, b2, b3]
      rfl
    · intro h
      simp only [UniformSpec, not_and_or] at h
      rcases h with h | h | h | h
      · simp at h
      · have b1 := Bool.eq_false_iff.mpr (fun hb => h (hobj_iff.mp hb))
        simp only [isUniformObjectArray, b1]
        rfl
      · rcases hb1 : (x :: xs).all isPlainObjectB with _ | _
        · simp only [isUniformObjectArray, hb1]; rfl
        · have b2 := Bool.eq_false_iff.mpr (fun hb => h (hsame_iff.mp hb))
          simp only [isUniformObjectArray, hb1, b2]
          rfl
      · rcases hb1 : (x :: xs).all isPlainObjectB with _ | _
        · simp only [isUniformObjectArray, hb1]; rfl
        · rcases hb2 : ((x :: xs).all (fun item =>
              (keysOf (asObj item)).length == (keysOf (asObj x)).length &&
                (keysOf (asObj x)).all (fun k => (keysOf (asObj item)).contains k))) with _ | _
          · simp only [isUniformObjectArray, hb1, hb2]; rfl
          · have b3 := Bool.eq_false_iff.mpr (fun hb => h (hprim_iff.mp hb))
            simp only [isUniformObjectArray, hb1, hb2, b3]
            rfl

/-- Witness for claim C3's positive direction on a concrete uniform array. -/
theorem claimC3_witness :
    isUniformObjectArray
      [.vobj [("name", .vstr "Alice"), ("age", .vnum 25)],
       .vobj [("age", .vnum 30), ("name", .vstr "Bob")]] =
      ⟨true, some (firstKeys
        [.vobj [("name", .vstr "Alice"), ("age", .vnum 25)],
         .vobj [("age", .vnum 30), ("name", .vstr "Bob")]])⟩ :=
  (claimC3 _).1 (by
    refine ⟨List.cons_ne_nil _ _, ?_, ?_, ?_⟩ <;> decide)


/-! ### Claim C1: shape of the tabular rendering -/

theorem encodeArray_uniform (arr : List Value) (ks : List String) (kn : String)
    (o : EncodeOptions) (htab : o.tabular = true) (hfl : o.flatten = false)
    (hu : isUniformObjectArray arr = ⟨true, some ks⟩) :
    encodeArray arr kn o = encodeTabularArray (arr.map asObj) ks kn o := by
  have hne : arr ≠ [] := by
    intro he
    rw [he] at hu
    exact absurd (congrArg UniformityVerdict.isUniform hu) (by simp [isUniformObjectArray])
  have hEmpty : arr.isEmpty = false := by
    cases arr with
    | nil => exact absurd rfl hne
    | cons a as => rfl
  rw [encodeArray, hEmpty]
  simp only [Bool.false_eq_true, if_false, htab, if_true, hfl, Bool.false_and,
    hu]

theorem tabularRowStrings_length (objs : List (List (String × Value)))
    (ks : List String) (o : EncodeOptions) :
    (tabularRowStrings objs ks o).length = objs.length := by
  simp [tabularRowStrings]

/-- Counterexample to claim C1 as stated: a uniform single-row array whose
only cell value contains a literal newline.  The tab-mode quoting oracle does
not quote it, the data region therefore contains two newline-separated
pieces for `N = 1`, so the output does not consist of exactly `N`
newline-separated data rows after the header line. -/
theorem claimC1_cex :
    isUniformObjectArray [(.vobj [("a", .vstr "x\ny")] : Value)] =
      ⟨true, some ["a"]⟩ ∧
    encodeArray [.vobj [("a", .vstr "x\ny")]] "k" defaultOptions =
      "k[1]\x7ba\x7d:" ++ "\n" ++ "x\ny" ∧
    (splitChar '\n'
      (encodeArray [.vobj [("a", .vstr "x\ny")]] "k" defaultOptions).data).length ≠
      1 + 1 := by
  have h : encodeArray [.vobj [("a", .vstr "x\ny")]] "k" defaultOptions =
      "k[1]\x7ba\x7d:" ++ "\n" ++ "x\ny" := by
    simp [encodeArray, encodeTabularArray, tabularRowStrings, tabularCell,
      isUniformObjectArray, isPlainObjectB, primitiveB, asObj, keysOf, jsGet,
      encodePrimitive, needsQuoting, hasAnyOf, tabBadChars, isLiteralShaped,
      numShaped, dropMinus, fracTail, expTail, setDelim, delimStr, joinSep,
      natStr, natDigs, natDigsAux, digitChar, startsWithCh, endsWithCh,
      slice1m1, defaultOptions, escapeString, quoteStr]
  refine ⟨by decide, h, ?_⟩
  rw [h]
  decide

/-- Claim C1, amended: for a uniform array rendered tabularly (tabular mode
on, flatten off) the output with a non-empty `keyName` is exactly the
semantic header `keyName[N]{keys}:` followed by the newline-join of the `N`
per-row cell lines (no repeated column-name row), and with an empty
`keyName` it is the delimiter-joined column names followed by the same `N`
row lines; splitting the data region at newlines recovers exactly the `N`
rows provided no encoded row contains a newline character (a string cell
containing a literal newline violates that proviso and inflates the count). -/
theorem claimC1 (arr : List Value) (ks : List String) (kn : String)
    (o : EncodeOptions) (htab : o.tabular = true) (hfl : o.flatten = false)
    (hu : isUniformObjectArray arr = ⟨true, some ks⟩) :
    (kn ≠ "" → encodeArray arr kn o =
      kn ++ "[" ++ natStr arr.length ++ "]\x7b" ++ joinSep "," ks ++ "\x7d:" ++
        "\n" ++ joinSep "\n" (tabularRowStrings (arr.map asObj) ks o)) ∧
    (encodeArray arr "" o =
      joinSep (delimStr (o.delimiter.getD Delim.tab)) ks ++ "\n" ++
        joinSep "\n" (tabularRowStrings (arr.map asObj) ks o)) ∧
    (tabularRowStrings (arr.map asObj) ks o).length = arr.length ∧
    ((∀ r ∈ tabularRowStrings (arr.map asObj) ks o, '\n' ∉ r.data) →
      splitChar '\n' (joinSep "\n" (tabularRowStrings (arr.map asObj) ks o)).data =
        (tabularRowStrings (arr.map asObj) ks o).map String.data) := by
  have hne : arr ≠ [] := by
    intro he
    rw [he] at hu
    exact absurd (congrArg UniformityVerdict.isUniform hu) (by simp [isUniformObjectArray])
  have hlen : (tabularRowStrings (arr.map asObj) ks o).length = arr.length := by
    rw [tabularRowStrings_length, List.length_map]
  refine ⟨?_, ?_, hlen, ?_⟩
  · intro hkn
    rw [encodeArray_uniform arr ks kn o htab hfl hu, encodeTabularArray]
    rw [if_pos hkn, List.length_map]
  · rw [encodeArray_uniform arr ks "" o htab hfl hu, encodeTabularArray]
    rw [if_neg (by simp)]
  · intro hmem
    rw [joinSep_data]
    rw [show ("\n" : String).data = ['\n'] from rfl]
    apply splitChar_joinChars
    · intro hmap
      apply hne
      have he : tabularRowStrings (arr.map asObj) ks o = [] := by
        cases hrows : tabularRowStrings (arr.map asObj) ks o with
        | nil => rfl
        | cons p ps => rw [hrows] at hmap; cases hmap
      rw [he] at hlen
      cases arr with
      | nil => rfl
      | cons a as => simp at hlen
    · intro x hx
      obtain ⟨p, hp, rfl⟩ := List.mem_map.mp hx
      exact hmem p hp

/-- Witness for the amended claim C1 on the two-row `users` table. -/
theorem claimC1_witness :
    encodeArray
      [.vobj [("name", .vstr "Alice"), ("age", .vnum 25)],
       .vobj [("name", .vstr "Bob"), ("age", .vnum 30)]] "users"
      ⟨false, false, false, some Delim.tab, true, false⟩ =
      "users" ++ "[" ++
        natStr ([(.vobj [("name", .vstr "Alice"), ("age", .vnum 25)] : Value),
          .vobj [("name", .vstr "Bob"), ("age", .vnum 30)]]).length ++
        "]\x7b" ++ joinSep "," ["name", "age"] ++ "\x7d:" ++ "\n" ++
        joinSep "\n" (tabularRowStrings
          ([(.vobj [("name", .vstr "Alice"), ("age", .vnum 25)] : Value),
            .vobj [("name", .vstr "Bob"), ("age", .vnum 30)]].map asObj)
          ["name", "age"] ⟨false, false, false, some Delim.tab, true, false⟩) :=
  (claimC1
    [.vobj [("name", .vstr "Alice"), ("age", .vnum 25)],
     .vobj [("name", .vstr "Bob"), ("age", .vnum 30)]]
    ["name", "age"] "users" ⟨false, false, false, some Delim.tab, true, false⟩
    rfl rfl (by decide)).1 (by decide)


/-! ### Claim C6: the flatten path -/

/-- First-seen-order deduplication, the specification-side description of a
JavaScript `Set` filled by iteration: keep the first occurrence of each key,
drop later ones. -/
def fsd (seen : List String) : List String → List String
  | [] => []
  | k :: rest => if seen.contains k then fsd seen rest else k :: fsd (k :: seen) rest

theorem contains_mem (l : List String) (a : String) :
    l.contains a = decide (a ∈ l) := List.elem_eq_mem a l

theorem fsd_congr : ∀ (l : List String) (s1 s2 : List String),
    (∀ x, s1.contains x = s2.contains x) → fsd s1 l = fsd s2 l := by
  intro l
  induction l with
  | nil => intro s1 s2 _; rfl
  | cons k rest ih =>
    intro s1 s2 h
    simp only [fsd, h k]
    cases hc : s2.contains k with
    | false =>
      simp only [Bool.false_eq_true, if_false]
      rw [ih (k :: s1) (k :: s2)]
      intro x
      have hx := h x
      rw [contains_mem, contains_mem] at hx
      have hiff : (x ∈ s1) ↔ (x ∈ s2) := decide_eq_decide.mp hx
      rw [contains_mem, contains_mem, decide_eq_decide]
      simp [List.mem_cons, hiff]
    | true =>
      simp only [if_true]
      exact ih s1 s2 h

theorem foldl_insKey_eq_fsd : ∀ (l : List String) (acc : List String),
    l.foldl insKey acc = acc ++ fsd acc l := by
  intro l
  induction l with
  | nil => intro acc; simp [fsd]
  | cons k rest ih =>
    intro acc
    rw [List.foldl_cons]
    cases hc : acc.contains k with
    | true =>
      have h0 : insKey acc k = acc := by rw [insKey, if_pos hc]
      rw [h0, ih acc, fsd, if_pos hc]
    | false =>
      have hm : k ∉ acc := by
        have h2 := hc
        rw [contains_mem] at h2
        exact of_decide_eq_false h2
      have h1 : insKey acc k = acc ++ [k] := by
        rw [insKey, if_neg (by simp [contains_mem, hm])]
      rw [h1, ih (acc ++ [k]), fsd, if_neg (by simp [contains_mem, hm])]
      rw [fsd_congr rest (acc ++ [k]) (k :: acc)]
      · simp
      · intro x
        rw [contains_mem, contains_mem, decide_eq_decide]
        constructor
        · intro hx
          rcases List.mem_append.mp hx with hx | hx
          · exact List.mem_cons_of_mem k hx
          · simp at hx
            simp [hx]
        · intro hx
          rcases List.mem_cons.mp hx with hx | hx
          · simp [hx]
          · exact List.mem_append_left _ hx

theorem unionKeys_eq_fsd (rows : List (List (String × Value))) :
    unionKeys rows = fsd [] (rows.flatMap keysOf) := by
  have h : ∀ acc, rows.foldl (fun acc row => (keysOf row).foldl insKey acc) acc =
      (rows.flatMap keysOf).foldl insKey acc := by
    induction rows with
    | nil => intro acc; rfl
    | cons r rs ih =>
      intro acc
      rw [List.foldl_cons, ih, List.flatMap_cons, List.foldl_append]
  rw [unionKeys, h, foldl_insKey_eq_fsd]
  rfl

/-- Counterexample to claim C6 as stated: for the empty array (all of whose
elements are vacuously plain objects) `encodeArray` returns `[0]` before the
flatten path is reached, while the claimed flatten-and-tabulate rendering
would produce the semantic header `k[0]{}:` with an empty data region. -/
theorem claimC6_cex :
    (∀ v ∈ ([] : List Value), isPlainObjectB v = true) ∧
    encodeArray [] "k" ⟨false, false, false, none, true, true⟩ = "[0]" ∧
    encodeTabularArray
      ((([] : List Value).map (fun v => flattenObject (asObj v) "" 10)).map
        (backfillRow (unionKeys (([] : List Value).map
          (fun v => flattenObject (asObj v) "" 10)))))
      (unionKeys (([] : List Value).map (fun v => flattenObject (asObj v) "" 10)))
      "k" ⟨false, false, false, none, true, true⟩ = "k[0]\x7b\x7d:" ++ "\n" ∧
    ("[0]" : String) ≠ "k[0]\x7b\x7d:" ++ "\n" := by
  refine ⟨by simp, ?_, ?_, by decide⟩
  · simp [encodeArray]
  · simp [encodeTabularArray, tabularRowStrings, unionKeys, joinSep, natStr,
      natDigs, natDigsAux, digitChar, delimStr]

/-- Claim C6, amended: for every non-empty array all of whose elements are
plain objects, with tabular mode on and flatten on, `encodeArray` flattens
every element, unions the flattened keys in first-seen order, backfills each
row's missing keys with null and renders via the tabular renderer with the
unioned key list.  (The empty array short-circuits to `[0]` instead.) -/
theorem claimC6 (arr : List Value) (kn : String) (o : EncodeOptions)
    (htab : o.tabular = true) (hfl : o.flatten = true) (hne : arr ≠ [])
    (hobj : arr.all isPlainObjectB = true) :
    encodeArray arr kn o =
      encodeTabularArray
        ((arr.map (fun v => flattenObject (asObj v) "" 10)).map
          (backfillRow (unionKeys (arr.map (fun v => flattenObject (asObj v) "" 10)))))
        (unionKeys (arr.map (fun v => flattenObject (asObj v) "" 10))) kn o ∧
    unionKeys (arr.map (fun v => flattenObject (asObj v) "" 10)) =
      fsd [] ((arr.map (fun v => flattenObject (asObj v) "" 10)).flatMap keysOf) := by
  refine ⟨?_, unionKeys_eq_fsd _⟩
  have hEmpty : arr.isEmpty = false := by
    cases arr with
    | nil => exact absurd rfl hne
    | cons a as => rfl
  rw [encodeArray, hEmpty]
  simp only [Bool.false_eq_true, if_false, htab, if_true, hfl, hobj,
    Bool.and_self, Bool.true_and]

/-- Witness for the amended claim C6 on a two-row array with disjoint keys. -/
theorem claimC6_witness :
    encodeArray [.vobj [("a", .vnum 1)], .vobj [("b", .vnum 2)]] "k"
      ⟨false, false, false, none, true, true⟩ =
      encodeTabularArray
        ((([(.vobj [("a", .vnum 1)] : Value), .vobj [("b", .vnum 2)]]).map
          (fun v => flattenObject (asObj v) "" 10)).map
          (backfillRow (unionKeys
            (([(.vobj [("a", .vnum 1)] : Value), .vobj [("b", .vnum 2)]]).map
              (fun v => flattenObject (asObj v) "" 10)))))
        (unionKeys (([(.vobj [("a", .vnum 1)] : Value), .vobj [("b", .vnum 2)]]).map
          (fun v => flattenObject (asObj v) "" 10)))
        "k" ⟨false, false, false, none, true, true⟩ :=
  (claimC6 [.vobj [("a", .vnum 1)], .vobj [("b", .vnum 2)]] "k"
    ⟨false, false, false, none, true, true⟩ rfl rfl (List.cons_ne_nil _ _)
    (by decide)).1


/-! ### Toolkit for the readable-mode and tabular-heuristic claims -/

@[simp] theorem withReadable_compactBooleans (o : EncodeOptions) (b : Bool) :
    (withReadable o b).compactBooleans = o.compactBooleans := rfl
@[simp] theorem withReadable_compactNull (o : EncodeOptions) (b : Bool) :
    (withReadable o b).compactNull = o.compactNull := rfl
@[simp] theorem withReadable_readable (o : EncodeOptions) (b : Bool) :
    (withReadable o b).readable = b := rfl
@[simp] theorem withReadable_delimiter (o : EncodeOptions) (b : Bool) :
    (withReadable o b).delimiter = o.delimiter := rfl
@[simp] theorem withReadable_tabular (o : EncodeOptions) (b : Bool) :
    (withReadable o b).tabular = o.tabular := rfl
@[simp] theorem withReadable_flatten (o : EncodeOptions) (b : Bool) :
    (withReadable o b).flatten = o.flatten := rfl

/-- Head-character test on character lists. -/
def headIs (l : List Char) (c : Char) : Bool := l.head? == some c

/-- Last-character test on character lists. -/
def lastIs (l : List Char) (c : Char) : Bool := l.getLast? == some c

/-- Whether the list contains a right brace immediately followed by a colon
(the two-character substring test of the tabular-block heuristic). -/
def hasSub2 : List Char → Bool
  | c1 :: c2 :: rest => (c1 == '\x7d' && c2 == ':') || hasSub2 (c2 :: rest)
  | _ => false

theorem containsSubstr_brace_colon (l : List Char) :
    containsSubstr "\x7d:".data l = hasSub2 l := by
  induction l with
  | nil => rfl
  | cons x t ih =>
    cases t with
    | nil => simp [containsSubstr, prefixOfB, hasSub2]
    | cons y r =>
      show (prefixOfB "\x7d:".data (x :: y :: r) || containsSubstr "\x7d:".data (y :: r)) = _
      rw [ih]
      show ((('\x7d' == x) && (((':' == y) && true))) || hasSub2 (y :: r)) = _
      simp only [hasSub2, Bool.and_true]
      rw [Bool.beq_comm ..]
      rw [show ((':' == y) = (y == ':')) from Bool.beq_comm ..]

theorem hasSub2_append (a b : List Char) :
    hasSub2 (a ++ b) =
      (hasSub2 a || hasSub2 b || (lastIs a '\x7d' && headIs b ':')) := by
  induction a with
  | nil => simp [hasSub2, lastIs]
  | cons x a' ih =>
    cases a' with
    | nil =>
      cases b with
      | nil => simp [hasSub2, lastIs, headIs]
      | cons y r => simp [hasSub2, lastIs, headIs, Bool.or_comm]
    | cons y t =>
      show hasSub2 (x :: y :: (t ++ b)) = _
      have h1 : hasSub2 (x :: y :: (t ++ b)) =
          ((x == '\x7d') && (y == ':') || hasSub2 (y :: t ++ b)) := rfl
      rw [h1, ih]
      have h3 : hasSub2 (x :: y :: t) = ((x == '\x7d') && (y == ':') || hasSub2 (y :: t)) := rfl
      have h4 : lastIs (x :: y :: t) '\x7d' = lastIs (y :: t) '\x7d' := by
        simp [lastIs, List.getLast?_cons_cons]
      rw [h3, h4]
      simp only [Bool.or_assoc]

theorem hasSub2_eq_false (l : List Char) (h : '\x7d' ∉ l) : hasSub2 l = false := by
  induction l with
  | nil => rfl
  | cons x t ih =>
    cases t with
    | nil => rfl
    | cons y r =>
      have hx : ¬ x = '\x7d' := fun e => h (by simp [e])
      have ht : '\x7d' ∉ y :: r := fun m => h (by simp [m])
      show ((x == '\x7d') && (y == ':') || hasSub2 (y :: r)) = false
      rw [ih ht]
      simp [hx]

/-- The space-dropping filter on character lists. -/
def stripList (l : List Char) : List Char := l.filter (fun c => !(c == ' '))

/-- `stripSpaces` removes every ASCII space, the transformation the
readable-mode claim is stated with. -/
def stripSpaces (s : String) : String := ⟨stripList s.data⟩

/-- The invariant relating the readable and non-readable encodings: equal
after dropping spaces, and agreeing on the presence of a right brace
immediately followed by a colon. -/
def SpRel (s t : String) : Prop :=
  stripList s.data = stripList t.data ∧ hasSub2 s.data = hasSub2 t.data

theorem SpRel.refl {s : String} : SpRel s s := ⟨Eq.refl _, Eq.refl _⟩

theorem SpRel.of_eq {s t : String} (h : s = t) : SpRel s t := by
  rw [h]; exact SpRel.refl

theorem stripList_append (a b : List Char) :
    stripList (a ++ b) = stripList a ++ stripList b := List.filter_append ..

theorem mem_stripList {c : Char} (hc : ¬ c = ' ') (l : List Char) :
    c ∈ stripList l ↔ c ∈ l := by
  constructor
  · intro h
    exact (List.mem_filter.mp h).1
  · intro h
    exact List.mem_filter.mpr ⟨h, by simp [hc]⟩

theorem contains_mem_char (l : List Char) (a : Char) :
    l.contains a = decide (a ∈ l) := List.elem_eq_mem a l

theorem SpRel_contains {s t : String} (h : SpRel s t) (c : Char)
    (hc : ¬ c = ' ') : s.data.contains c = t.data.contains c := by
  rw [contains_mem_char, contains_mem_char, decide_eq_decide]
  rw [← mem_stripList hc s.data, ← mem_stripList hc t.data, h.1]

theorem SpRel_hasSub2 {s t : String} (h : SpRel s t) :
    hasSub2 s.data = hasSub2 t.data := h.2

theorem SpRel_append {a1 a2 b1 b2 : String} (ha : SpRel a1 a2)
    (hb : SpRel b1 b2)
    (hbd : (lastIs a1.data '\x7d' && headIs b1.data ':') =
      (lastIs a2.data '\x7d' && headIs b2.data ':')) :
    SpRel (a1 ++ b1) (a2 ++ b2) := by
  constructor
  · rw [String.data_append, String.data_append, stripList_append, stripList_append,
      ha.1, hb.1]
  · rw [String.data_append, String.data_append, hasSub2_append, hasSub2_append,
      ha.2, hb.2, hbd]

theorem SpRel_append_bf {a1 a2 b1 b2 : String} (ha : SpRel a1 a2)
    (hb : SpRel b1 b2) (h1 : lastIs a1.data '\x7d' = false)
    (h2 : lastIs a2.data '\x7d' = false) : SpRel (a1 ++ b1) (a2 ++ b2) :=
  SpRel_append ha hb (by rw [h1, h2, Bool.false_and, Bool.false_and])

theorem SpRel_append_hf {a1 a2 b1 b2 : String} (ha : SpRel a1 a2)
    (hb : SpRel b1 b2) (h1 : headIs b1.data ':' = false)
    (h2 : headIs b2.data ':' = false) : SpRel (a1 ++ b1) (a2 ++ b2) :=
  SpRel_append ha hb (by rw [h1, h2, Bool.and_false, Bool.and_false])

theorem lastIs_append (a b : List Char) (c : Char) (h : b ≠ []) :
    lastIs (a ++ b) c = lastIs b c := by
  rw [lastIs, lastIs, List.getLast?_append_of_ne_nil a h]

theorem SpRel_joinSep :
    ∀ (l1 l2 : List String), List.Forall₂ SpRel l1 l2 →
    ∀ (sep1 sep2 : String), SpRel sep1 sep2 →
    headIs sep1.data ':' = false → headIs sep2.data ':' = false →
    lastIs sep1.data '\x7d' = false → lastIs sep2.data '\x7d' = false →
    sep1 ≠ "" → sep2 ≠ "" →
    SpRel (joinSep sep1 l1) (joinSep sep2 l2) := by
  intro l1
  induction l1 with
  | nil =>
    intro l2 hf
    cases hf
    intro _ _ _ _ _ _ _ _ _
    exact SpRel.refl
  | cons x xs ih =>
    intro l2 hf
    cases hf with
    | cons hx hrest =>
      rename_i y ys
      intro sep1 sep2 hsep hh1 hh2 hl1 hl2 hne1 hne2
      cases xs with
      | nil =>
        cases hrest
        exact hx
      | cons x' xs' =>
        cases hrest with
        | cons hy hys =>
          rename_i y' ys'
          have hsep1ne : sep1.data ≠ [] := fun e => hne1 (by
            cases sep1 with | _ d => simp at e; simp [e])
          have hsep2ne : sep2.data ≠ [] := fun e => hne2 (by
            cases sep2 with | _ d => simp at e; simp [e])
          show SpRel (x ++ sep1 ++ joinSep sep1 (x' :: xs'))
            (y ++ sep2 ++ joinSep sep2 (y' :: ys'))
          apply SpRel_append_bf
          · exact SpRel_append_hf hx hsep hh1 hh2
          · exact ih (y' :: ys') (List.Forall₂.cons hy hys) sep1 sep2 hsep
              hh1 hh2 hl1 hl2 hne1 hne2
          · rw [String.data_append, lastIs_append x.data sep1.data _ hsep1ne]
            exact hl1
          · rw [String.data_append, lastIs_append y.data sep2.data _ hsep2ne]
            exact hl2


theorem data_eq_nil_iff (s : String) : s.data = [] ↔ s = "" := by
  constructor
  · intro h
    cases s with
    | mk d => simp at h; simp [h]
  · intro h
    rw [h]

theorem encodePrimitive_wr (v : Value) (o : EncodeOptions) (b : Bool) :
    encodePrimitive v (withReadable o b) = encodePrimitive v (withReadable o false) := by
  cases v <;> rfl

theorem tabularCell_wr (d : Delim) (o : EncodeOptions) (b : Bool) (v : Value) :
    tabularCell d (withReadable o b) v = tabularCell d (withReadable o false) v := by
  have he : encodePrimitive v (setDelim (withReadable o b) d) =
      encodePrimitive v (setDelim (withReadable o false) d) :=
    encodePrimitive_wr v (setDelim o d) b
  simp only [tabularCell, he]

theorem tabularRowStrings_wr (objs : List (List (String × Value)))
    (keys : List String) (o : EncodeOptions) (b : Bool) :
    tabularRowStrings objs keys (withReadable o b) =
      tabularRowStrings objs keys (withReadable o false) := by
  simp only [tabularRowStrings, withReadable_delimiter]
  apply List.map_congr_left
  intro obj _
  have hmap : keys.map (fun k =>
      tabularCell (o.delimiter.getD Delim.tab) (withReadable o b) (jsGet obj k)) =
      keys.map (fun k =>
      tabularCell (o.delimiter.getD Delim.tab) (withReadable o false) (jsGet obj k)) :=
    List.map_congr_left (fun k _ => tabularCell_wr _ o b _)
  rw [hmap]

theorem encodeTabularArray_wr (objs : List (List (String × Value)))
    (keys : List String) (kn : String) (o : EncodeOptions) (b : Bool) :
    encodeTabularArray objs keys kn (withReadable o b) =
      encodeTabularArray objs keys kn (withReadable o false) := by
  simp only [encodeTabularArray, withReadable_delimiter, tabularRowStrings_wr objs keys o b]

theorem append_ne_empty_of_left {a : String} (ha : a ≠ "") (b : String) :
    a ++ b ≠ "" := by
  intro e
  have hd := congrArg String.data e
  rw [String.data_append] at hd
  have h2 := List.append_eq_nil.mp hd
  exact ha ((data_eq_nil_iff a).mp h2.1)

theorem append_ne_empty_of_right (a : String) {b : String} (hb : b ≠ "") :
    a ++ b ≠ "" := by
  intro e
  have hd := congrArg String.data e
  rw [String.data_append] at hd
  have h2 := List.append_eq_nil.mp hd
  exact hb ((data_eq_nil_iff b).mp h2.2)

theorem encodedKeyStr_ne_empty (k : String) : encodedKeyStr k ≠ "" := by
  rw [encodedKeyStr]
  by_cases h : (k.data.contains ' ' || needsQuoting k Delim.tab) = true
  · rw [if_pos h, quoteStr]
    exact append_ne_empty_of_right _ (by decide)
  · rw [if_neg h]
    intro e
    rw [e] at h
    exact h (by decide)

theorem encodeTabularArray_ne_empty (objs : List (List (String × Value)))
    (keys : List String) (kn : String) (o : EncodeOptions) :
    encodeTabularArray objs keys kn o ≠ "" := by
  simp only [encodeTabularArray]
  by_cases h : kn ≠ ""
  · rw [if_pos h]
    apply append_ne_empty_of_left
    exact append_ne_empty_of_right _ (by decide)
  · rw [if_neg h]
    apply append_ne_empty_of_left
    exact append_ne_empty_of_right _ (by decide)

theorem listForm_ne_empty (arr : List Value) (o : EncodeOptions) :
    listForm arr o ≠ "" := by
  rw [listForm]
  apply append_ne_empty_of_left
  apply append_ne_empty_of_left
  apply append_ne_empty_of_left
  exact append_ne_empty_of_left (by decide) _

theorem encodeArray_ne_empty (arr : List Value) (kn : String)
    (o : EncodeOptions) : encodeArray arr kn o ≠ "" := by
  rw [encodeArray]
  by_cases he : arr.isEmpty = true
  · rw [if_pos he]
    decide
  · rw [if_neg he]
    by_cases ht : o.tabular = true
    · rw [if_pos ht]
      by_cases hf : (o.flatten && arr.all isPlainObjectB) = true
      · rw [if_pos hf]
        exact encodeTabularArray_ne_empty _ _ _ _
      · rw [if_neg hf]
        rcases hu : isUniformObjectArray arr with ⟨iu, ks⟩
        cases iu with
        | true =>
          cases ks with
          | none => exact listForm_ne_empty arr o
          | some l => exact encodeTabularArray_ne_empty _ _ _ _
        | false =>
          cases ks with
          | none => exact listForm_ne_empty arr o
          | some l => exact listForm_ne_empty arr o
    · rw [if_neg (by simpa using ht)]
      exact listForm_ne_empty arr o

theorem encodeEntry_ne_empty (k : String) (v : Value) (o : EncodeOptions) :
    encodeEntry k v o ≠ "" := by
  have hk : encodedKeyStr k ≠ "" := encodedKeyStr_ne_empty k
  cases v with
  | varr a =>
    rw [encodeEntry]
    by_cases hh : tabularBlockHeuristic (encodeArray a k o) = true
    · rw [if_pos hh]
      exact encodeArray_ne_empty a k o
    · rw [if_neg hh]
      exact append_ne_empty_of_left hk _
  | vobj m =>
    rw [encodeEntry]
    by_cases hh : (encodeObject m o == "") = true
    · rw [if_pos hh]
      exact hk
    · rw [if_neg hh]
      apply append_ne_empty_of_left
      apply append_ne_empty_of_left
      exact append_ne_empty_of_left hk _
  | vnull =>
    have he : encodeEntry k .vnull o = encodedKeyStr k ++ ":" ++
        (if o.readable then " " else "") ++ encodePrimitive .vnull o := by
      simp [encodeEntry]
    rw [he]
    apply append_ne_empty_of_left
    apply append_ne_empty_of_left
    exact append_ne_empty_of_right _ (by decide)
  | vundefined =>
    have he : encodeEntry k .vundefined o = encodedKeyStr k ++ ":" ++
        (if o.readable then " " else "") ++ encodePrimitive .vundefined o := by
      simp [encodeEntry]
    rw [he]
    apply append_ne_empty_of_left
    apply append_ne_empty_of_left
    exact append_ne_empty_of_right _ (by decide)
  | vbool b =>
    have he : encodeEntry k (.vbool b) o = encodedKeyStr k ++ ":" ++
        (if o.readable then " " else "") ++ encodePrimitive (.vbool b) o := by
      simp [encodeEntry]
    rw [he]
    apply append_ne_empty_of_left
    apply append_ne_empty_of_left
    exact append_ne_empty_of_right _ (by decide)
  | vnum n =>
    have he : encodeEntry k (.vnum n) o = encodedKeyStr k ++ ":" ++
        (if o.readable then " " else "") ++ encodePrimitive (.vnum n) o := by
      simp [encodeEntry]
    rw [he]
    apply append_ne_empty_of_left
    apply append_ne_empty_of_left
    exact append_ne_empty_of_right _ (by decide)
  | vstr str =>
    have he : encodeEntry k (.vstr str) o = encodedKeyStr k ++ ":" ++
        (if o.readable then " " else "") ++ encodePrimitive (.vstr str) o := by
      simp [encodeEntry]
    rw [he]
    apply append_ne_empty_of_left
    apply append_ne_empty_of_left
    exact append_ne_empty_of_right _ (by decide)

theorem joinSep_ne_empty (sep x : String) (xs : List String) (hx : x ≠ "") :
    joinSep sep (x :: xs) ≠ "" := by
  cases xs with
  | nil => exact hx
  | cons y ys =>
    show x ++ sep ++ joinSep sep (y :: ys) ≠ ""
    apply append_ne_empty_of_left
    exact append_ne_empty_of_left hx _

theorem encodeObject_eq_empty_iff (ents : List (String × Value))
    (o : EncodeOptions) : encodeObject ents o = "" ↔ ents = [] := by
  constructor
  · intro h
    cases ents with
    | nil => rfl
    | cons e rest =>
      rw [encodeObject] at h
      simp only [List.isEmpty_cons, Bool.false_eq_true, if_false] at h
      rw [encodePairs] at h
      exact absurd h (joinSep_ne_empty _ _ _ (encodeEntry_ne_empty e.1 e.2 o))
  · intro h
    rw [h]
    simp [encodeObject]


/-! ### Claim C7: array-valued object entries -/

theorem hasSub2_true_of_piece (y : List Char) (b : List Char) :
    hasSub2 ((y ++ "\x7d:".data) ++ b) = true := by
  rw [hasSub2_append, hasSub2_append]
  have h : hasSub2 "\x7d:".data = true := rfl
  rw [h]
  simp

theorem tabularBlockHeuristic_semantic (objs : List (List (String × Value)))
    (keys : List String) (kn : String) (o : EncodeOptions) (hkn : kn ≠ "") :
    tabularBlockHeuristic (encodeTabularArray objs keys kn o) = true := by
  simp only [encodeTabularArray, if_pos hkn]
  rw [tabularBlockHeuristic]
  have h1 : '\n' ∈ (kn ++ "[" ++ natStr objs.length ++ "]\x7b" ++
      joinSep "," keys ++ "\x7d:" ++ "\n" ++
      joinSep "\n" (tabularRowStrings objs keys o)).data := by
    simp [String.data_append]
  have h2 : '\x7b' ∈ (kn ++ "[" ++ natStr objs.length ++ "]\x7b" ++
      joinSep "," keys ++ "\x7d:" ++ "\n" ++
      joinSep "\n" (tabularRowStrings objs keys o)).data := by
    simp [String.data_append]
  have h3 : hasSub2 (kn ++ "[" ++ natStr objs.length ++ "]\x7b" ++
      joinSep "," keys ++ "\x7d:" ++ "\n" ++
      joinSep "\n" (tabularRowStrings objs keys o)).data = true := by
    simp only [String.data_append]
    rw [show kn.data ++ "[".data ++ (natStr objs.length).data ++ "]\x7b".data ++
        (joinSep "," keys).data ++ "\x7d:".data ++ "\n".data ++
        (joinSep "\n" (tabularRowStrings objs keys o)).data =
        ((kn.data ++ "[".data ++ (natStr objs.length).data ++ "]\x7b".data ++
          (joinSep "," keys).data) ++ "\x7d:".data) ++ ("\n".data ++
          (joinSep "\n" (tabularRowStrings objs keys o)).data) by
      simp [List.append_assoc]]
    exact hasSub2_true_of_piece _ _
  rw [containsSubstr_brace_colon, h3, contains_mem_char, contains_mem_char,
    decide_eq_true h1, decide_eq_true h2]
  rfl

/-- Counterexample to claim C7 as stated: for the non-uniform array
`["x\ny", "a{b}:c"]` the bracketed list form happens to contain a newline, a
left brace and the substring of a right brace followed by a colon (inside a
quoted string), so `encodeObject` emits it as-is and drops the key — the
claimed `encodedKey ++ bracketed list` output never appears. -/
theorem claimC7_cex :
    encodeArray [.vstr "x\ny", .vstr "a\x7bb\x7d:c"] "k" defaultOptions =
      "[2]x\ny,\"a\x7bb\x7d:c\"" ∧
    encodeObject [("k", .varr [.vstr "x\ny", .vstr "a\x7bb\x7d:c"])]
      defaultOptions = "[2]x\ny,\"a\x7bb\x7d:c\"" ∧
    (isUniformObjectArray [.vstr "x\ny", .vstr "a\x7bb\x7d:c"]).isUniform =
      false ∧
    ("[2]x\ny,\"a\x7bb\x7d:c\"" : String) ≠
      encodedKeyStr "k" ++ "[2]x\ny,\"a\x7bb\x7d:c\"" := by
  have h1 : encodeArray [.vstr "x\ny", .vstr "a\x7bb\x7d:c"] "k"
      defaultOptions = "[2]x\ny,\"a\x7bb\x7d:c\"" := by
    simp [encodeArray, listForm, encodeListParts, isUniformObjectArray,
      isPlainObjectB, encodePrimitive, needsQuoting, hasAnyOf, commaBadChars,
      isLiteralShaped, numShaped, dropMinus, fracTail, expTail, escapeString,
      quoteStr, joinSep, natStr, natDigs, natDigsAux, digitChar,
      defaultOptions]
  have h2 : encodeObject [("k", .varr [.vstr "x\ny", .vstr "a\x7bb\x7d:c"])]
      defaultOptions = "[2]x\ny,\"a\x7bb\x7d:c\"" := by
    have hent : encodeEntry "k" (.varr [.vstr "x\ny", .vstr "a\x7bb\x7d:c"])
        defaultOptions = "[2]x\ny,\"a\x7bb\x7d:c\"" := by
      rw [encodeEntry]
      rw [h1]
      rw [if_pos (by decide)]
    rw [encodeObject]
    simp only [List.isEmpty_cons, Bool.false_eq_true, if_false]
    rw [encodePairs, encodePairs, hent]
    rfl
  exact ⟨h1, h2, by decide, by decide⟩

/-- Claim C7, amended: the as-is emission is governed by the syntactic check
(`contains newline ∧ contains left brace ∧ contains right-brace-colon`), not
by actually being a tabular block: when the check holds the encoded array is
emitted without the key, otherwise the encoded key is concatenated directly
with the bracketed list (no colon).  Every keyed tabular rendering of a
uniform array does satisfy the check, but some non-tabular list forms
satisfy it too and then lose their key. -/
theorem claimC7_amended (k : String) (a : List Value) (o : EncodeOptions) :
    (tabularBlockHeuristic (encodeArray a k o) = true →
      encodeEntry k (.varr a) o = encodeArray a k o) ∧
    (tabularBlockHeuristic (encodeArray a k o) = false →
      encodeEntry k (.varr a) o = encodedKeyStr k ++ encodeArray a k o) ∧
    (∀ ks : List String, k ≠ "" → o.tabular = true → o.flatten = false →
      isUniformObjectArray a = ⟨true, some ks⟩ →
      tabularBlockHeuristic (encodeArray a k o) = true) := by
  refine ⟨?_, ?_, ?_⟩
  · intro h
    rw [encodeEntry, if_pos h]
  · intro h
    rw [encodeEntry, if_neg (by simp [h])]
  · intro ks hk htab hfl hu
    rw [encodeArray_uniform a ks k o htab hfl hu]
    exact tabularBlockHeuristic_semantic _ _ _ _ hk

/-- Witness for the amended claim C7: the keyed uniform `users` table is
emitted as-is, and its heuristic check holds. -/
theorem claimC7_amended_witness :
    encodeEntry "users"
      (.varr [.vobj [("id", .vnum 1)], .vobj [("id", .vnum 2)]])
      defaultOptions =
      encodeArray [.vobj [("id", .vnum 1)], .vobj [("id", .vnum 2)]] "users"
        defaultOptions :=
  (claimC7_amended "users" [.vobj [("id", .vnum 1)], .vobj [("id", .vnum 2)]]
    defaultOptions).1
    ((claimC7_amended "users" [.vobj [("id", .vnum 1)], .vobj [("id", .vnum 2)]]
      defaultOptions).2.2 ["id"] (by decide) rfl rfl (by decide))


/-! ### Claim C5, amended (uses the tabular helpers above) -/

/-- Claim C5, amended: for every object entry the key is quoted exactly when
it contains a space or `needsQuoting` holds for the tab delimiter (the
TypeScript parameter default, since `encodeObject` omits the delimiter
argument), so a key containing a comma but no space and no tab-mode-bad
character is not quoted.  The quoted-or-verbatim key prefixes
primitive-valued entries (key, colon, readable-mode space, value),
object-valued entries (key then braced body, or the bare key for an empty
object), and array-valued entries whose array encoding fails the
newline/brace/brace-colon syntactic check; an array-valued entry whose
encoding passes the check is emitted as-is, and in particular for a uniform
object array the raw key name appears verbatim and unquoted at the head of
the tabular header even when it contains a space or a comma. -/
theorem claimC5_amended (k : String) (v : Value) (o : EncodeOptions) :
    (primitiveB v = true →
      encodeEntry k v o =
        (if k.data.contains ' ' || needsQuoting k Delim.tab then quoteStr k
          else k) ++ ":" ++ (if o.readable then " " else "") ++
          encodePrimitive v o) ∧
    (∀ m, v = .vobj m →
      encodeEntry k v o =
        if encodeObject m o = "" then
          (if k.data.contains ' ' || needsQuoting k Delim.tab then quoteStr k
            else k)
        else
          (if k.data.contains ' ' || needsQuoting k Delim.tab then quoteStr k
            else k) ++ "\x7b" ++ encodeObject m o ++ "\x7d") ∧
    (∀ a, v = .varr a →
      encodeEntry k v o =
        if tabularBlockHeuristic (encodeArray a k o) then encodeArray a k o
        else
          (if k.data.contains ' ' || needsQuoting k Delim.tab then quoteStr k
            else k) ++ encodeArray a k o) ∧
    (∀ a ks, v = .varr a → k ≠ "" → o.tabular = true → o.flatten = false →
      isUniformObjectArray a = ⟨true, some ks⟩ →
      encodeEntry k v o =
        k ++ "[" ++ natStr a.length ++ "]\x7b" ++ joinSep "," ks ++ "\x7d:" ++
          "\n" ++ joinSep "\n" (tabularRowStrings (a.map asObj) ks o)) := by
  refine ⟨?_, ?_, ?_, ?_⟩
  · intro h
    cases v with
    | vnull => simp [encodeEntry, encodedKeyStr]
    | vundefined => simp [encodeEntry, encodedKeyStr]
    | vbool b => simp [encodeEntry, encodedKeyStr]
    | vnum n => simp [encodeEntry, encodedKeyStr]
    | vstr s => simp [encodeEntry, encodedKeyStr]
    | varr a => exact absurd h (by simp [primitiveB])
    | vobj m => exact absurd h (by simp [primitiveB])
  · rintro m rfl
    by_cases hn : encodeObject m o = ""
    · simp [encodeEntry, encodedKeyStr, hn]
    · simp [encodeEntry, encodedKeyStr, hn]
  · rintro a rfl
    by_cases hh : tabularBlockHeuristic (encodeArray a k o) = true
    · rw [encodeEntry, if_pos hh, if_pos hh]
    · rw [encodeEntry, if_neg hh, if_neg hh]
      rfl
  · rintro a ks rfl hk htab hfl hu
    have he : encodeArray a k o = encodeTabularArray (a.map asObj) ks k o :=
      encodeArray_uniform a ks k o htab hfl hu
    have hh : tabularBlockHeuristic (encodeArray a k o) = true := by
      rw [he]
      exact tabularBlockHeuristic_semantic _ _ _ _ hk
    rw [encodeEntry, if_pos hh, he]
    simp only [encodeTabularArray, if_pos hk, List.length_map]

/-- Witness for the amended claim C5: the comma-containing key `a,b` with a
primitive value is emitted unquoted, and the space-containing key `a b` with
a uniform-array value is embedded verbatim and unquoted in the tabular
header. -/
theorem claimC5_amended_witness :
    encodeEntry "a,b" (.vnum 1) defaultOptions =
      (if ("a,b" : String).data.contains ' ' || needsQuoting "a,b" Delim.tab
        then quoteStr "a,b" else "a,b") ++ ":" ++
        (if defaultOptions.readable then " " else "") ++
        encodePrimitive (.vnum 1) defaultOptions ∧
    encodeEntry "a b" (.varr [.vobj [("x", .vnum 1)]]) defaultOptions =
      "a b" ++ "[" ++ natStr ([Value.vobj [("x", .vnum 1)]]).length ++
        "]\x7b" ++ joinSep "," ["x"] ++ "\x7d:" ++ "\n" ++
        joinSep "\n"
          (tabularRowStrings ([Value.vobj [("x", .vnum 1)]].map asObj) ["x"]
            defaultOptions) :=
  ⟨(claimC5_amended "a,b" (.vnum 1) defaultOptions).1 (by decide),
   (claimC5_amended "a b" (.varr [.vobj [("x", .vnum 1)]])
      defaultOptions).2.2.2 [.vobj [("x", .vnum 1)]] ["x"] rfl (by decide)
      rfl rfl (by decide)⟩


/-! ### Claim C10: the de-quoting relaxation under a comma delimiter -/

theorem flatMap_escape_id : ∀ l : List Char, '"' ∉ l →
    (l.flatMap (fun c => if c = '"' then ['\\', '"'] else [c])) = l := by
  intro l
  induction l with
  | nil => intro _; rfl
  | cons x xs ih =>
    intro h
    have hx : ¬ x = '"' := fun e => h (by simp [e])
    have hxs : '"' ∉ xs := fun m => h (List.mem_cons_of_mem _ m)
    simp only [List.flatMap_cons, if_neg hx, ih hxs]
    rfl

theorem escapeString_eq_self {s : String} (h : '"' ∉ s.data) :
    escapeString s = s := by
  rw [escapeString, flatMap_escape_id s.data h]

theorem splitChar_length (c : Char) (l : List Char) :
    (splitChar c l).length = l.count c + 1 := by
  induction l with
  | nil => rfl
  | cons x xs ih =>
    rw [splitChar]
    by_cases hx : x = c
    · rw [if_pos hx]
      simp only [List.length_cons, ih, hx]
      rw [List.count_cons_self]
    · rw [if_neg hx]
      cases hr : splitChar c xs with
      | nil => exact absurd hr (splitChar_ne_nil c xs)
      | cons hh tt =>
        simp only [List.length_cons]
        rw [hr] at ih
        simp only [List.length_cons] at ih
        have hcnt : List.count c (x :: xs) = List.count c xs := by
          rw [List.count_cons, if_neg (by simp [hx]), Nat.add_zero]
        rw [hcnt]
        exact ih

/-- Claim C10 (implicit): the tabular de-quoting relaxation applies for
every delimiter, not only tab.  With the delimiter set to comma (as in the
`forDebugging` and `forCompatibility` presets) every string cell the
comma-mode oracle would quote, but which contains no tab, newline or double
quote and is not literal-shaped, is emitted without quotes — so a
comma-containing cell makes its row split into more comma-separated fields
than there are columns. -/
theorem claimC10 (o : EncodeOptions) (s : String)
    (hd : o.delimiter = some Delim.comma)
    (hq : needsQuoting s Delim.comma = true)
    (h1 : s.data.contains '\t' = false)
    (h2 : s.data.contains '\n' = false)
    (h3 : s.data.contains '"' = false)
    (hlit : isLiteralShaped s.data = false) :
    tabularCell Delim.comma o (.vstr s) = s ∧
    tabularRowStrings [[("k", .vstr s)]] ["k"] o = [s] ∧
    (',' ∈ s.data → 2 ≤ (splitChar ',' s.data).length) ∧
    forDebugging.delimiter = some Delim.comma ∧
    forCompatibility.delimiter = some Delim.comma := by
  have hq3 : '"' ∉ s.data := by
    intro m
    rw [contains_mem_char] at h3
    exact absurd (decide_eq_true m) (by simp [h3])
  have hesc : escapeString s = s := escapeString_eq_self hq3
  have henc : encodePrimitive (.vstr s) (setDelim o Delim.comma) =
      "\"" ++ s ++ "\"" := by
    rw [encodePrimitive]
    have : (setDelim o Delim.comma).delimiter.getD Delim.comma = Delim.comma := rfl
    rw [this, if_pos hq, quoteStr, hesc]
  have hcell : tabularCell Delim.comma o (.vstr s) = s := by
    rw [tabularCell, henc]
    have hdata : ("\"" ++ s ++ "\"").data = '"' :: (s.data ++ ['"']) := by
      rw [String.data_append, String.data_append]
      rfl
    have hstart : startsWithCh ("\"" ++ s ++ "\"") '"' = true := by
      rw [startsWithCh, hdata]
      rfl
    have hend : endsWithCh ("\"" ++ s ++ "\"") '"' = true := by
      rw [endsWithCh, hdata]
      have : ('"' :: (s.data ++ ['"'])).getLast? = some '"' := by
        rw [show '"' :: (s.data ++ ['"']) = ('"' :: s.data) ++ ['"'] by simp]
        rw [List.getLast?_append_of_ne_nil _ (by simp)]
        rfl
      rw [this]
      rfl
    rw [hstart, hend]
    simp only [Bool.and_self, if_true]
    have hslice : slice1m1 ("\"" ++ s ++ "\"") = s := by
      rw [slice1m1, hdata]
      simp only [List.drop_succ_cons, List.drop_zero]
      rw [List.dropLast_concat]
    rw [hslice]
    have hl : isLiteralShaped s.data = false := hlit
    rw [isLiteralShaped] at hl
    simp only [Bool.or_eq_false_iff] at hl
    rw [h1, h2, h3]
    simp only [Bool.not_false, Bool.and_self, if_true]
    rw [hl.2]
    have ht : (s != "true") = true := by
      rw [bne_iff_ne]
      intro e
      have := hl.1.1.1
      rw [e] at this
      simp at this
    have hf : (s != "false") = true := by
      rw [bne_iff_ne]
      intro e
      have := hl.1.1.2
      rw [e] at this
      simp at this
    have hn : (s != "null") = true := by
      rw [bne_iff_ne]
      intro e
      have := hl.1.2
      rw [e] at this
      simp at this
    rw [ht, hf, hn]
    rfl
  refine ⟨hcell, ?_, ?_, rfl, rfl⟩
  · simp only [tabularRowStrings, hd]
    simp only [Option.getD_some, List.map_cons, List.map_nil]
    rw [show jsGet [("k", Value.vstr s)] "k" = Value.vstr s from rfl]
    rw [hcell]
    rfl
  · intro hm
    rw [splitChar_length]
    have := List.count_pos_iff.mpr hm
    omega

/-- Witness for claim C10 at the cell value `a,b` under the `forDebugging`
preset: the comma-containing cell is emitted unquoted, so its row splits
into more comma-separated fields than there are columns (2 > 1). -/
theorem claimC10_witness :
    tabularCell Delim.comma forDebugging (.vstr "a,b") = "a,b" ∧
    tabularRowStrings [[("k", .vstr "a,b")]] ["k"] forDebugging = ["a,b"] :=
  ⟨(claimC10 forDebugging "a,b" rfl (by decide) (by decide) (by decide)
      (by decide) (by decide)).1,
   (claimC10 forDebugging "a,b" rfl (by decide) (by decide) (by decide)
      (by decide) (by decide)).2.1⟩


/-! ### Claim C2: characterization of the quoting oracle -/

/-- A non-empty run of decimal digits. -/
def isDigitRun (l : List Char) : Prop := l ≠ [] ∧ ∀ c ∈ l, c.isDigit = true

/-- The claim's numeric-literal grammar: an optional leading minus, a digit
run, an optional dot followed by a digit run, and an optional exponent
marker `e`/`E` with an optional sign and a digit run. -/
def NumericLit (cs : List Char) : Prop :=
  ∃ sgn intPart fracPart expPart : List Char,
    cs = sgn ++ intPart ++ fracPart ++ expPart ∧
    (sgn = [] ∨ sgn = ['-']) ∧
    isDigitRun intPart ∧
    (fracPart = [] ∨ ∃ fd, fracPart = '.' :: fd ∧ isDigitRun fd) ∧
    (expPart = [] ∨ ∃ ec sg ed, (ec = 'e' ∨ ec = 'E') ∧
      (sg = [] ∨ sg = ['+'] ∨ sg = ['-']) ∧ isDigitRun ed ∧
      expPart = ec :: (sg ++ ed))

theorem takeWhile_digits_append (d r : List Char)
    (hd : ∀ c ∈ d, c.isDigit = true)
    (hr : ∀ c t, r = c :: t → c.isDigit = false) :
    (d ++ r).takeWhile Char.isDigit = d := by
  induction d with
  | nil =>
    cases r with
    | nil => rfl
    | cons c t =>
      simp only [List.nil_append, List.takeWhile_cons, hr c t rfl,
        Bool.false_eq_true, if_false]
  | cons x d2 ih =>
    simp only [List.cons_append, List.takeWhile_cons, hd x (by simp), if_true]
    rw [ih (fun c hc => hd c (by simp [hc]))]

theorem dropWhile_digits_append (d r : List Char)
    (hd : ∀ c ∈ d, c.isDigit = true)
    (hr : ∀ c t, r = c :: t → c.isDigit = false) :
    (d ++ r).dropWhile Char.isDigit = r := by
  induction d with
  | nil =>
    cases r with
    | nil => rfl
    | cons c t =>
      simp only [List.nil_append, List.dropWhile_cons, hr c t rfl,
        Bool.false_eq_true, if_false]
  | cons x d2 ih =>
    simp only [List.cons_append, List.dropWhile_cons, hd x (by simp), if_true]
    exact ih (fun c hc => hd c (by simp [hc]))

theorem span_digits_append (d r : List Char)
    (hd : ∀ c ∈ d, c.isDigit = true)
    (hr : ∀ c t, r = c :: t → c.isDigit = false) :
    (d ++ r).span Char.isDigit = (d, r) := by
  rw [List.span_eq_take_drop, takeWhile_digits_append d r hd hr,
    dropWhile_digits_append d r hd hr]

theorem dropWhile_head_not_digit : ∀ (l : List Char) (c : Char) (t : List Char),
    l.dropWhile Char.isDigit = c :: t → c.isDigit = false := by
  intro l
  induction l with
  | nil => intro c t h; cases h
  | cons x xs ih =>
    intro c t h
    rw [List.dropWhile_cons] at h
    by_cases hx : x.isDigit = true
    · rw [if_pos hx] at h
      exact ih c t h
    · rw [if_neg hx] at h
      cases h
      exact Bool.eq_false_iff.mpr hx

theorem digit_ne (c : Char) (hc : c.isDigit = true) :
    ¬ c = '-' ∧ ¬ c = '+' ∧ ¬ c = '.' ∧ ¬ c = 'e' ∧ ¬ c = 'E' := by
  refine ⟨?_, ?_, ?_, ?_, ?_⟩ <;> intro e <;> rw [e] at hc <;> exact absurd hc (by decide)

theorem dropMinus_cons (c : Char) (l : List Char) :
    dropMinus (c :: l) = if c = '-' then l else c :: l := rfl

theorem fracTail_cons (c : Char) (r : List Char) :
    fracTail (c :: r) =
      if c = '.' then
        (if ((r.span Char.isDigit).1).isEmpty then c :: r
         else (r.span Char.isDigit).2)
      else c :: r := rfl

theorem expTail_cons (c : Char) (r : List Char) :
    expTail (c :: r) =
      if c = 'e' ∨ c = 'E' then
        (if (((match r with
              | s :: rr => if s = '+' ∨ s = '-' then rr else r
              | [] => r).span Char.isDigit).1).isEmpty then c :: r
         else ((match r with
              | s :: rr => if s = '+' ∨ s = '-' then rr else r
              | [] => r).span Char.isDigit).2)
      else c :: r := rfl

theorem numShaped_of_NumericLit (cs : List Char) (h : NumericLit cs) :
    numShaped cs = true := by
  obtain ⟨sgn, d, f, e, hcs, hsgn, hd, hf, he⟩ := h
  obtain ⟨hdne, hddig⟩ := hd
  have hassoc : cs = sgn ++ (d ++ (f ++ e)) := by
    rw [hcs]; simp [List.append_assoc]
  have hfe_head : ∀ c t, f ++ e = c :: t → c.isDigit = false := by
    intro c t hft
    rcases hf with hf | ⟨fd, hff, _⟩
    · rw [hf, List.nil_append] at hft
      rcases he with he | ⟨ec, sg, ed, hec, _, _, he⟩
      · rw [he] at hft; cases hft
      · rw [he] at hft
        cases hft
        rcases hec with hec | hec <;> rw [hec] <;> decide
    · rw [hff] at hft
      cases hft
      decide
  have hehead : ∀ c t, e = c :: t → c.isDigit = false := by
    intro c t het
    rcases he with he | ⟨ec, sg, ed, hec, _, _, he⟩
    · rw [he] at het; cases het
    · rw [he] at het
      cases het
      rcases hec with hec | hec <;> rw [hec] <;> decide
  have hcs1 : dropMinus cs = d ++ (f ++ e) := by
    rcases hsgn with hs | hs
    · rw [hassoc, hs, List.nil_append]
      cases hdcase : d with
      | nil => exact absurd hdcase hdne
      | cons c d2 =>
        have hcdig := hddig c (by rw [hdcase]; simp)
        rw [List.cons_append, dropMinus_cons, if_neg (digit_ne c hcdig).1]
    · rw [hassoc, hs, List.singleton_append, dropMinus_cons, if_pos rfl]
  have hfrac : fracTail (f ++ e) = e := by
    rcases hf with hf | ⟨fd, hff, hfdrun⟩
    · rw [hf, List.nil_append]
      rcases he with he | ⟨ec, sg, ed, hec, _, _, he⟩
      · rw [he]; rfl
      · rw [he, fracTail_cons,
          if_neg (by rcases hec with hec | hec <;> rw [hec] <;> decide)]
    · rw [hff, List.cons_append, fracTail_cons, if_pos rfl,
        span_digits_append fd e hfdrun.2 hehead]
      simp only []
      rw [if_neg (by simp [hfdrun.1])]
  have hexp : expTail e = [] := by
    rcases he with he | ⟨ec, sg, ed, hec, hsg, hedrun, he⟩
    · rw [he]; rfl
    · rw [he, expTail_cons, if_pos hec]
      have hspan_ed : ed.span Char.isDigit = (ed, []) := by
        have h2 := span_digits_append ed [] hedrun.2 (by intro c t h3; cases h3)
        simpa using h2
      have hr4 : (match sg ++ ed with
          | s :: rr => if s = '+' ∨ s = '-' then rr else sg ++ ed
          | [] => sg ++ ed) = ed := by
        rcases hsg with hs | hs | hs
        · rw [hs, List.nil_append]
          cases hedcase : ed with
          | nil => exact absurd hedcase hedrun.1
          | cons c ed2 =>
            have hcdig := hedrun.2 c (by rw [hedcase]; simp)
            simp only []
            rw [if_neg]
            intro hor
            rcases hor with hh | hh
            · exact (digit_ne c hcdig).2.1 hh
            · exact (digit_ne c hcdig).1 hh
        · rw [hs]
          simp
        · rw [hs]
          simp
      rw [hr4, hspan_ed]
      simp only []
      rw [if_neg (by simp [hedrun.1])]
  have hspan : (d ++ (f ++ e)).span Char.isDigit = (d, f ++ e) :=
    span_digits_append d (f ++ e) hddig hfe_head
  simp only [numShaped, hcs1, hspan]
  rw [if_neg (by simp [hdne]), hfrac, hexp]
  rfl


theorem fracTail_cases (r1 : List Char) :
    fracTail r1 = r1 ∨
      (∃ fd, isDigitRun fd ∧ r1 = '.' :: (fd ++ fracTail r1)) := by
  cases r1 with
  | nil => left; rfl
  | cons c r =>
    by_cases hc : c = '.'
    · subst hc
      rw [fracTail_cons, if_pos rfl]
      by_cases hp2 : ((r.span Char.isDigit).1).isEmpty = true
      · rw [if_pos hp2]; left; rfl
      · rw [if_neg hp2]; right
        refine ⟨(r.span Char.isDigit).1, ⟨?_, ?_⟩, ?_⟩
        · intro he
          rw [List.span_eq_take_drop] at he hp2
          simp only [] at he
          apply hp2
          rw [he]
          rfl
        · intro a ha
          rw [List.span_eq_take_drop] at ha
          exact List.mem_takeWhile_imp ha
        · rw [List.span_eq_take_drop]
          simp only []
          rw [List.takeWhile_append_dropWhile]
    · left; rw [fracTail_cons, if_neg hc]

theorem expTail_cases (r2 : List Char) :
    expTail r2 = r2 ∨
      (∃ ec sg ed, (ec = 'e' ∨ ec = 'E') ∧
        (sg = [] ∨ sg = ['+'] ∨ sg = ['-']) ∧ isDigitRun ed ∧
        r2 = ec :: (sg ++ (ed ++ expTail r2))) := by
  cases r2 with
  | nil => left; rfl
  | cons c r =>
    by_cases hec : c = 'e' ∨ c = 'E'
    · rw [expTail_cons, if_pos hec]
      cases r with
      | nil =>
        simp only []
        left
        rfl
      | cons s rr =>
        by_cases hs : s = '+' ∨ s = '-'
        · simp only [if_pos hs]
          by_cases hp3 : ((rr.span Char.isDigit).1).isEmpty = true
          · rw [if_pos hp3]; left; rfl
          · rw [if_neg hp3]; right
            refine ⟨c, [s], (rr.span Char.isDigit).1, hec, ?_, ⟨?_, ?_⟩, ?_⟩
            · rcases hs with hs | hs <;> simp [hs]
            · intro he
              rw [List.span_eq_take_drop] at he hp3
              simp only [] at he
              apply hp3
              rw [he]
              rfl
            · intro a ha
              rw [List.span_eq_take_drop] at ha
              exact List.mem_takeWhile_imp ha
            · rw [List.span_eq_take_drop]
              simp only [List.singleton_append, List.cons.injEq, true_and]
              rw [List.takeWhile_append_dropWhile]
        · simp only [if_neg hs]
          by_cases hp3 : (((s :: rr).span Char.isDigit).1).isEmpty = true
          · rw [if_pos hp3]; left; rfl
          · rw [if_neg hp3]; right
            refine ⟨c, [], ((s :: rr).span Char.isDigit).1, hec, Or.inl rfl,
              ⟨?_, ?_⟩, ?_⟩
            · intro he
              rw [List.span_eq_take_drop] at he hp3
              simp only [] at he
              apply hp3
              rw [he]
              rfl
            · intro a ha
              rw [List.span_eq_take_drop] at ha
              exact List.mem_takeWhile_imp ha
            · rw [List.span_eq_take_drop]
              simp only [List.nil_append, List.cons.injEq, true_and]
              rw [List.takeWhile_append_dropWhile]
    · left; rw [expTail_cons, if_neg hec]

theorem NumericLit_of_numShaped (cs : List Char) (h : numShaped cs = true) :
    NumericLit cs := by
  have hsgn : cs = dropMinus cs ∨ cs = '-' :: dropMinus cs := by
    cases cs with
    | nil => left; rfl
    | cons c r =>
      by_cases hc : c = '-'
      · right
        rw [dropMinus_cons, if_pos hc, hc]
      · left
        rw [dropMinus_cons, if_neg hc]
  rw [numShaped, List.span_eq_take_drop] at h
  simp only [] at h
  by_cases hd : ((dropMinus cs).takeWhile Char.isDigit).isEmpty = true
  · rw [if_pos hd] at h
    cases h
  · rw [if_neg hd] at h
    have hdrun : isDigitRun ((dropMinus cs).takeWhile Char.isDigit) := by
      constructor
      · intro he
        rw [he] at hd
        exact hd rfl
      · intro a ha
        exact List.mem_takeWhile_imp ha
    have hsplit1 : dropMinus cs =
        (dropMinus cs).takeWhile Char.isDigit ++
          (dropMinus cs).dropWhile Char.isDigit :=
      (List.takeWhile_append_dropWhile _ _).symm
    have hend : expTail (fracTail ((dropMinus cs).dropWhile Char.isDigit)) = [] :=
      List.isEmpty_iff.mp h
    have hassemble : ∃ f e, (dropMinus cs).dropWhile Char.isDigit = f ++ e ∧
        (f = [] ∨ ∃ fd, f = '.' :: fd ∧ isDigitRun fd) ∧
        (e = [] ∨ ∃ ec sg ed, (ec = 'e' ∨ ec = 'E') ∧
          (sg = [] ∨ sg = ['+'] ∨ sg = ['-']) ∧ isDigitRun ed ∧
          e = ec :: (sg ++ ed)) := by
      rcases fracTail_cases ((dropMinus cs).dropWhile Char.isDigit) with
        hfc | ⟨fd, hfdrun, hfc⟩ <;>
        rcases expTail_cases (fracTail ((dropMinus cs).dropWhile Char.isDigit))
          with hec2 | ⟨ec, sg, ed, hecs, hsgs, hedrun, hec2⟩
      · rw [hfc] at hec2 hend
        have hr1 : (dropMinus cs).dropWhile Char.isDigit = [] :=
          hec2.symm.trans hend
        exact ⟨[], [], by rw [hr1]; rfl, Or.inl rfl, Or.inl rfl⟩
      · rw [hfc] at hec2 hend
        rw [hend] at hec2
        exact ⟨[], ec :: (sg ++ ed), by rw [hec2]; simp, Or.inl rfl,
          Or.inr ⟨ec, sg, ed, hecs, hsgs, hedrun, rfl⟩⟩
      · have hr2 : fracTail ((dropMinus cs).dropWhile Char.isDigit) = [] :=
          hec2.symm.trans hend
        rw [hr2] at hfc
        exact ⟨'.' :: fd, [], by rw [hfc]; simp, Or.inr ⟨fd, rfl, hfdrun⟩,
          Or.inl rfl⟩
      · rw [hend] at hec2
        rw [hec2] at hfc
        exact ⟨'.' :: fd, ec :: (sg ++ ed), by rw [hfc]; simp,
          Or.inr ⟨fd, rfl, hfdrun⟩,
          Or.inr ⟨ec, sg, ed, hecs, hsgs, hedrun, rfl⟩⟩
    obtain ⟨f, e, hr1eq, hfs, hes⟩ := hassemble
    rcases hsgn with hs | hs
    · refine ⟨[], (dropMinus cs).takeWhile Char.isDigit, f, e, ?_, Or.inl rfl,
        hdrun, hfs, hes⟩
      rw [List.nil_append]
      conv =>
        lhs
        rw [hs, hsplit1, hr1eq]
      simp [List.append_assoc]
    · refine ⟨['-'], (dropMinus cs).takeWhile Char.isDigit, f, e, ?_,
        Or.inr rfl, hdrun, hfs, hes⟩
      conv =>
        lhs
        rw [hs, hsplit1, hr1eq]
      simp [List.append_assoc]

theorem numShaped_iff (cs : List Char) :
    numShaped cs = true ↔ NumericLit cs :=
  ⟨NumericLit_of_numShaped cs, numShaped_of_NumericLit cs⟩


theorem hasAnyOf_iff (cs bad : List Char) :
    hasAnyOf cs bad = true ↔ ∃ c ∈ cs, c ∈ bad := by
  rw [hasAnyOf, List.any_eq_true]
  constructor
  · rintro ⟨c, hc, hb⟩
    rw [contains_mem_char] at hb
    exact ⟨c, hc, of_decide_eq_true hb⟩
  · rintro ⟨c, hc, hb⟩
    exact ⟨c, hc, by rw [contains_mem_char]; exact decide_eq_true hb⟩

theorem contains_space_iff (cs : List Char) :
    cs.contains ' ' = true ↔ ∃ c ∈ cs, c = ' ' := by
  rw [contains_mem_char]
  constructor
  · intro h
    exact ⟨' ', of_decide_eq_true h, rfl⟩
  · rintro ⟨c, hc, rfl⟩
    exact decide_eq_true hc

theorem isLiteralShaped_iff (s : String) :
    isLiteralShaped s.data = true ↔
      (s = "true" ∨ s = "false" ∨ s = "null" ∨ NumericLit s.data) := by
  rw [isLiteralShaped]
  simp only [Bool.or_eq_true, beq_iff_eq]
  have hb : ∀ t : String, s.data = t.data ↔ s = t := by
    intro t
    constructor
    · intro h
      cases s with
      | mk d1 =>
        cases t with
        | mk d2 => simp at h; rw [h]
    · intro h
      rw [h]
  rw [hb, hb, hb, numShaped_iff]
  tauto

theorem tab_class_iff (s : String) :
    hasAnyOf s.data tabBadChars = true ↔
      (∃ c ∈ s.data, c = '\t' ∨ c = '|' ∨ c = ':' ∨ c = '[' ∨ c = ']' ∨
        c = '\x7b' ∨ c = '\x7d') := by
  rw [hasAnyOf_iff]
  constructor
  · rintro ⟨c, hc, hb⟩
    refine ⟨c, hc, ?_⟩
    simp [tabBadChars] at hb
    tauto
  · rintro ⟨c, hc, hb⟩
    refine ⟨c, hc, ?_⟩
    simp [tabBadChars]
    tauto

theorem comma_class_iff (s : String) :
    (hasAnyOf s.data commaBadChars = true ∨ s.data.contains ' ' = true) ↔
      (∃ c ∈ s.data, c = ',' ∨ c = ':' ∨ c = '[' ∨ c = ']' ∨ c = '\x7b' ∨
        c = '\x7d' ∨ c = ' ') := by
  rw [hasAnyOf_iff, contains_space_iff]
  constructor
  · rintro (⟨c, hc, hb⟩ | ⟨c, hc, hb⟩)
    · refine ⟨c, hc, ?_⟩
      simp [commaBadChars] at hb
      tauto
    · exact ⟨c, hc, by tauto⟩
  · rintro ⟨c, hc, hb⟩
    rcases hb with h | h | h | h | h | h | h
    · exact Or.inl ⟨c, hc, by simp [commaBadChars, h]⟩
    · exact Or.inl ⟨c, hc, by simp [commaBadChars, h]⟩
    · exact Or.inl ⟨c, hc, by simp [commaBadChars, h]⟩
    · exact Or.inl ⟨c, hc, by simp [commaBadChars, h]⟩
    · exact Or.inl ⟨c, hc, by simp [commaBadChars, h]⟩
    · exact Or.inl ⟨c, hc, by simp [commaBadChars, h]⟩
    · exact Or.inr ⟨c, hc, h⟩

theorem pipe_class_iff (s : String) :
    (hasAnyOf s.data pipeBadChars = true ∨ s.data.contains ' ' = true) ↔
      (∃ c ∈ s.data, c = '|' ∨ c = ':' ∨ c = '[' ∨ c = ']' ∨ c = '\x7b' ∨
        c = '\x7d' ∨ c = ' ') := by
  rw [hasAnyOf_iff, contains_space_iff]
  constructor
  · rintro (⟨c, hc, hb⟩ | ⟨c, hc, hb⟩)
    · refine ⟨c, hc, ?_⟩
      simp [pipeBadChars] at hb
      tauto
    · exact ⟨c, hc, by tauto⟩
  · rintro ⟨c, hc, hb⟩
    rcases hb with h | h | h | h | h | h | h
    · exact Or.inl ⟨c, hc, by simp [pipeBadChars, h]⟩
    · exact Or.inl ⟨c, hc, by simp [pipeBadChars, h]⟩
    · exact Or.inl ⟨c, hc, by simp [pipeBadChars, h]⟩
    · exact Or.inl ⟨c, hc, by simp [pipeBadChars, h]⟩
    · exact Or.inl ⟨c, hc, by simp [pipeBadChars, h]⟩
    · exact Or.inl ⟨c, hc, by simp [pipeBadChars, h]⟩
    · exact Or.inr ⟨c, hc, h⟩

/-- Claim C2: full characterization of the quoting oracle.  `needsQuoting`
returns true exactly when the string is empty; or the delimiter is tab and
the string contains a tab, a pipe, or a structural character; or the
delimiter is comma (resp. pipe) and the string contains that delimiter, a
structural character, or a space; or the string's full text is `true`,
`false`, `null`, or matches the numeric-literal grammar.  In particular a
non-empty string of plain spaces is not quoted under the tab delimiter. -/
theorem claimC2 (s : String) (d : Delim) :
    needsQuoting s d = true ↔
      (s = "" ∨
       (d = Delim.tab ∧ ∃ c ∈ s.data, c = '\t' ∨ c = '|' ∨ c = ':' ∨ c = '[' ∨
         c = ']' ∨ c = '\x7b' ∨ c = '\x7d') ∨
       (d = Delim.comma ∧ ∃ c ∈ s.data, c = ',' ∨ c = ':' ∨ c = '[' ∨
         c = ']' ∨ c = '\x7b' ∨ c = '\x7d' ∨ c = ' ') ∨
       (d = Delim.pipe ∧ ∃ c ∈ s.data, c = '|' ∨ c = ':' ∨ c = '[' ∨ c = ']' ∨
         c = '\x7b' ∨ c = '\x7d' ∨ c = ' ') ∨
       s = "true" ∨ s = "false" ∨ s = "null" ∨ NumericLit s.data) := by
  unfold needsQuoting
  by_cases hemp : s.data.isEmpty = true
  · rw [if_pos hemp]
    have hs : s = "" := (data_eq_nil_iff s).mp (List.isEmpty_iff.mp hemp)
    simp [hs]
  · rw [if_neg hemp]
    have hsne : ¬ s = "" := by
      intro e
      rw [e] at hemp
      exact hemp rfl
    cases d with
    | tab =>
      constructor
      · intro h
        by_cases ha : hasAnyOf s.data tabBadChars = true
        · exact Or.inr (Or.inl ⟨rfl, (tab_class_iff s).mp ha⟩)
        · rw [if_neg ha] at h
          rcases (isLiteralShaped_iff s).mp h with h | h | h | h
          · exact Or.inr (Or.inr (Or.inr (Or.inr (Or.inl h))))
          · exact Or.inr (Or.inr (Or.inr (Or.inr (Or.inr (Or.inl h)))))
          · exact Or.inr (Or.inr (Or.inr (Or.inr (Or.inr (Or.inr (Or.inl h))))))
          · exact Or.inr (Or.inr (Or.inr (Or.inr (Or.inr (Or.inr (Or.inr h))))))
      · intro h
        rcases h with h | ⟨_, h⟩ | ⟨hd, _⟩ | ⟨hd, _⟩ | h | h | h | h
        · exact absurd h hsne
        · rw [if_pos ((tab_class_iff s).mpr h)]
        · exact absurd hd (by intro e; cases e)
        · exact absurd hd (by intro e; cases e)
        all_goals
          by_cases ha : hasAnyOf s.data tabBadChars = true
        · rw [if_pos ha]
        · rw [if_neg ha]
          exact (isLiteralShaped_iff s).mpr (by tauto)
        · rw [if_pos ha]
        · rw [if_neg ha]
          exact (isLiteralShaped_iff s).mpr (by tauto)
        · rw [if_pos ha]
        · rw [if_neg ha]
          exact (isLiteralShaped_iff s).mpr (by tauto)
        · rw [if_pos ha]
        · rw [if_neg ha]
          exact (isLiteralShaped_iff s).mpr (by tauto)
    | comma =>
      constructor
      · intro h
        by_cases ha : hasAnyOf s.data commaBadChars = true
        · exact Or.inr (Or.inr (Or.inl ⟨rfl, (comma_class_iff s).mp (Or.inl ha)⟩))
        · rw [if_neg ha] at h
          by_cases hsp : s.data.contains ' ' = true
          · exact Or.inr (Or.inr (Or.inl ⟨rfl, (comma_class_iff s).mp (Or.inr hsp)⟩))
          · rw [if_neg hsp] at h
            rcases (isLiteralShaped_iff s).mp h with h | h | h | h
            · exact Or.inr (Or.inr (Or.inr (Or.inr (Or.inl h))))
            · exact Or.inr (Or.inr (Or.inr (Or.inr (Or.inr (Or.inl h)))))
            · exact Or.inr (Or.inr (Or.inr (Or.inr (Or.inr (Or.inr (Or.inl h))))))
            · exact Or.inr (Or.inr (Or.inr (Or.inr (Or.inr (Or.inr (Or.inr h))))))
      · intro h
        rcases h with h | ⟨hd, _⟩ | ⟨_, h⟩ | ⟨hd, _⟩ | h | h | h | h
        · exact absurd h hsne
        · exact absurd hd (by intro e; cases e)
        · rcases (comma_class_iff s).mpr h with ha | hsp
          · rw [if_pos ha]
          · by_cases ha : hasAnyOf s.data commaBadChars = true
            · rw [if_pos ha]
            · rw [if_neg ha, if_pos hsp]
        · exact absurd hd (by intro e; cases e)
        all_goals
          by_cases ha : hasAnyOf s.data commaBadChars = true
        · rw [if_pos ha]
        · rw [if_neg ha]
          by_cases hsp : s.data.contains ' ' = true
          · rw [if_pos hsp]
          · rw [if_neg hsp]
            exact (isLiteralShaped_iff s).mpr (by tauto)
        · rw [if_pos ha]
        · rw [if_neg ha]
          by_cases hsp : s.data.contains ' ' = true
          · rw [if_pos hsp]
          · rw [if_neg hsp]
            exact (isLiteralShaped_iff s).mpr (by tauto)
        · rw [if_pos ha]
        · rw [if_neg ha]
          by_cases hsp : s.data.contains ' ' = true
          · rw [if_pos hsp]
          · rw [if_neg hsp]
            exact (isLiteralShaped_iff s).mpr (by tauto)
        · rw [if_pos ha]
        · rw [if_neg ha]
          by_cases hsp : s.data.contains ' ' = true
          · rw [if_pos hsp]
          · rw [if_neg hsp]
            exact (isLiteralShaped_iff s).mpr (by tauto)
    | pipe =>
      constructor
      · intro h
        by_cases ha : hasAnyOf s.data pipeBadChars = true
        · exact Or.inr (Or.inr (Or.inr (Or.inl ⟨rfl, (pipe_class_iff s).mp (Or.inl ha)⟩)))
        · rw [if_neg ha] at h
          by_cases hsp : s.data.contains ' ' = true
          · exact Or.inr (Or.inr (Or.inr (Or.inl ⟨rfl, (pipe_class_iff s).mp (Or.inr hsp)⟩)))
          · rw [if_neg hsp] at h
            rcases (isLiteralShaped_iff s).mp h with h | h | h | h
            · exact Or.inr (Or.inr (Or.inr (Or.inr (Or.inl h))))
            · exact Or.inr (Or.inr (Or.inr (Or.inr (Or.inr (Or.inl h)))))
            · exact Or.inr (Or.inr (Or.inr (Or.inr (Or.inr (Or.inr (Or.inl h))))))
            · exact Or.inr (Or.inr (Or.inr (Or.inr (Or.inr (Or.inr (Or.inr h))))))
      · intro h
        rcases h with h | ⟨hd, _⟩ | ⟨hd, _⟩ | ⟨_, h⟩ | h | h | h | h
        · exact absurd h hsne
        · exact absurd hd (by intro e; cases e)
        · exact absurd hd (by intro e; cases e)
        · rcases (pipe_class_iff s).mpr h with ha | hsp
          · rw [if_pos ha]
          · by_cases ha : hasAnyOf s.data pipeBadChars = true
            · rw [if_pos ha]
            · rw [if_neg ha, if_pos hsp]
        all_goals
          by_cases ha : hasAnyOf s.data pipeBadChars = true
        · rw [if_pos ha]
        · rw [if_neg ha]
          by_cases hsp : s.data.contains ' ' = true
          · rw [if_pos hsp]
          · rw [if_neg hsp]
            exact (isLiteralShaped_iff s).mpr (by tauto)
        · rw [if_pos ha]
        · rw [if_neg ha]
          by_cases hsp : s.data.contains ' ' = true
          · rw [if_pos hsp]
          · rw [if_neg hsp]
            exact (isLiteralShaped_iff s).mpr (by tauto)
        · rw [if_pos ha]
        · rw [if_neg ha]
          by_cases hsp : s.data.contains ' ' = true
          · rw [if_pos hsp]
          · rw [if_neg hsp]
            exact (isLiteralShaped_iff s).mpr (by tauto)
        · rw [if_pos ha]
        · rw [if_neg ha]
          by_cases hsp : s.data.contains ' ' = true
          · rw [if_pos hsp]
          · rw [if_neg hsp]
            exact (isLiteralShaped_iff s).mpr (by tauto)


/-- Witness instantiating claim C2: a comma-containing string must be quoted
under the comma delimiter, and a blank (spaces-only) string needs no quotes
under the tab delimiter. -/
theorem claimC2_witness :
    needsQuoting "x,y" Delim.comma = true ∧
    ¬ needsQuoting "   " Delim.tab = true :=
  ⟨(claimC2 "x,y" Delim.comma).mpr
      (Or.inr (Or.inr (Or.inl ⟨rfl, ⟨',', by decide, Or.inl rfl⟩⟩))),
   fun h => by
    rcases (claimC2 "   " Delim.tab).mp h with h | ⟨_, c, hc, hor⟩ | ⟨hd, _⟩ |
        ⟨hd, _⟩ | h | h | h | h
    · exact absurd h (by decide)
    · simp at hc
      rw [hc] at hor
      rcases hor with h | h | h | h | h | h | h <;> cases h
    · cases hd
    · cases hd
    · exact absurd h (by decide)
    · exact absurd h (by decide)
    · exact absurd h (by decide)
    · obtain ⟨sgn, d, f, e, hcs, hsgn, ⟨hdne, hddig⟩, _, _⟩ := h
      have : ∀ c ∈ ("   " : String).data, ¬ c.isDigit = true := by decide
      cases hd : d with
      | nil => exact hdne hd
      | cons c d2 =>
        have hcmem : c ∈ ("   " : String).data := by
          rw [hcs]
          rcases hsgn with hs | hs <;> rw [hs] <;> rw [hd] <;> simp
        exact this c hcmem (hddig c (by rw [hd]; simp))⟩


/-! ### Claim C8: readable mode only moves spaces -/

theorem SpRel_spacer (b1 b2 : Bool) :
    SpRel (if b1 = true then " " else "") (if b2 = true then " " else "") := by
  cases b1 <;> cases b2 <;> exact ⟨by decide, by decide⟩

theorem SpRel_sep (b1 b2 : Bool) :
    SpRel (if b1 = true then ", " else ",") (if b2 = true then ", " else ",") := by
  cases b1 <;> cases b2 <;> exact ⟨by decide, by decide⟩

theorem sep_headIs (b : Bool) :
    headIs (if b = true then ", " else ",").data ':' = false := by
  cases b <;> decide

theorem sep_lastIs (b : Bool) :
    lastIs (if b = true then ", " else ",").data '\x7d' = false := by
  cases b <;> decide

theorem sep_ne (b : Bool) : (if b = true then ", " else ",") ≠ "" := by
  cases b <;> decide

theorem needsQuoting_true_of_brace (k : String) (h : '\x7d' ∈ k.data) :
    needsQuoting k Delim.tab = true := by
  unfold needsQuoting
  have hne : ¬ k.data.isEmpty = true := by
    cases hd : k.data with
    | nil => rw [hd] at h; cases h
    | cons c t => simp
  rw [if_neg hne]
  rw [if_pos ((hasAnyOf_iff _ _).mpr ⟨'\x7d', h, by decide⟩)]

theorem lastIs_encodedKeyStr (k : String) :
    lastIs (encodedKeyStr k).data '\x7d' = false := by
  rw [encodedKeyStr]
  by_cases h : (k.data.contains ' ' || needsQuoting k Delim.tab) = true
  · rw [if_pos h, quoteStr, String.data_append, lastIs_append _ _ _ (by decide)]
    decide
  · rw [if_neg h]
    cases hl : k.data.getLast? with
    | none => rw [lastIs, hl]; rfl
    | some c =>
      by_cases hc : c = '\x7d'
      · exfalso
        apply h
        rw [Bool.or_eq_true]
        right
        exact needsQuoting_true_of_brace k (hc ▸ List.mem_of_mem_getLast? hl)
      · rw [lastIs, hl]
        simp [hc]

theorem lastIs_bracket_spacer (n : Nat) (b : Bool) :
    lastIs ("[" ++ natStr n ++ "]" ++ (if b = true then " " else "")).data
      '\x7d' = false := by
  cases b with
  | false =>
    simp only [Bool.false_eq_true, if_false]
    rw [String.data_append, show ("" : String).data = [] from rfl,
      List.append_nil, String.data_append, lastIs_append _ _ _ (by decide)]
    decide
  | true =>
    simp only [if_true]
    rw [String.data_append, lastIs_append _ _ _ (by decide)]
    decide

theorem lastIs_bracket (n : Nat) :
    lastIs ("[" ++ natStr n ++ "]").data '\x7d' = false := by
  rw [String.data_append, lastIs_append _ _ _ (by decide)]
  decide

theorem lastIs_keycolon (k : String) :
    lastIs (encodedKeyStr k ++ ":").data '\x7d' = false := by
  rw [String.data_append, lastIs_append _ _ _ (by decide)]
  decide

theorem lastIs_keycolon_spacer (k : String) (b : Bool) :
    lastIs ((encodedKeyStr k ++ ":" ++ (if b = true then " " else "")).data)
      '\x7d' = false := by
  cases b with
  | false =>
    simp only [Bool.false_eq_true, if_false]
    rw [String.data_append, show ("" : String).data = [] from rfl,
      List.append_nil]
    exact lastIs_keycolon k
  | true =>
    simp only [if_true]
    rw [String.data_append, lastIs_append _ _ _ (by decide)]
    decide

theorem lastIs_keybrace (k : String) :
    lastIs (encodedKeyStr k ++ "\x7b").data '\x7d' = false := by
  rw [String.data_append, lastIs_append _ _ _ (by decide)]
  decide

theorem SpRel_listForm (arr : List Value) (o : EncodeOptions) (b1 b2 : Bool)
    (hparts : List.Forall₂ SpRel (encodeListParts arr (withReadable o b1))
      (encodeListParts arr (withReadable o b2))) :
    SpRel (listForm arr (withReadable o b1))
      (listForm arr (withReadable o b2)) := by
  simp only [listForm, withReadable_readable]
  apply SpRel_append_bf
  · apply SpRel_append_bf
    · exact SpRel.refl
    · exact SpRel_spacer b1 b2
    · exact lastIs_bracket arr.length
    · exact lastIs_bracket arr.length
  · exact SpRel_joinSep _ _ hparts _ _ (SpRel_sep b1 b2) (sep_headIs b1)
      (sep_headIs b2) (sep_lastIs b1) (sep_lastIs b2) (sep_ne b1) (sep_ne b2)
  · exact lastIs_bracket_spacer arr.length b1
  · exact lastIs_bracket_spacer arr.length b2


theorem spRel_master : ∀ n : Nat,
    (∀ (arr : List Value) (o : EncodeOptions) (b1 b2 : Bool), sizeOf arr ≤ n →
      List.Forall₂ SpRel (encodeListParts arr (withReadable o b1))
        (encodeListParts arr (withReadable o b2))) ∧
    (∀ (ents : List (String × Value)) (o : EncodeOptions) (b1 b2 : Bool),
      sizeOf ents ≤ n →
      List.Forall₂ SpRel (encodePairs ents (withReadable o b1))
        (encodePairs ents (withReadable o b2))) ∧
    (∀ (arr : List Value) (kn : String) (o : EncodeOptions) (b1 b2 : Bool),
      sizeOf arr ≤ n →
      SpRel (encodeArray arr kn (withReadable o b1))
        (encodeArray arr kn (withReadable o b2))) ∧
    (∀ (ents : List (String × Value)) (o : EncodeOptions) (b1 b2 : Bool),
      sizeOf ents ≤ n →
      SpRel (encodeObject ents (withReadable o b1))
        (encodeObject ents (withReadable o b2))) ∧
    (∀ (k : String) (v : Value) (o : EncodeOptions) (b1 b2 : Bool),
      sizeOf v ≤ n →
      SpRel (encodeEntry k v (withReadable o b1))
        (encodeEntry k v (withReadable o b2))) := by
  intro n
  induction n using Nat.strong_induction_on with
  | _ n ih =>
  have hprim : ∀ (v : Value) (o : EncodeOptions) (b1 b2 : Bool),
      SpRel (encodePrimitive v (withReadable o b1))
        (encodePrimitive v (withReadable o b2)) := by
    intro v o b1 b2
    exact SpRel.of_eq ((encodePrimitive_wr v o b1).trans
      (encodePrimitive_wr v o b2).symm)
  have hkey : ∀ (k : String) (o : EncodeOptions) (b1 b2 : Bool) (v : Value),
      SpRel (encodedKeyStr k ++ ":" ++
        (if b1 = true then " " else "") ++ encodePrimitive v (withReadable o b1))
        (encodedKeyStr k ++ ":" ++
        (if b2 = true then " " else "") ++ encodePrimitive v (withReadable o b2)) := by
    intro k o b1 b2 v
    apply SpRel_append_bf
    · apply SpRel_append_bf
      · exact SpRel.refl
      · exact SpRel_spacer b1 b2
      · exact lastIs_keycolon k
      · exact lastIs_keycolon k
    · exact hprim v o b1 b2
    · exact lastIs_keycolon_spacer k b1
    · exact lastIs_keycolon_spacer k b2
  have hE : ∀ (k : String) (v : Value) (o : EncodeOptions) (b1 b2 : Bool),
      sizeOf v ≤ n →
      SpRel (encodeEntry k v (withReadable o b1))
        (encodeEntry k v (withReadable o b2)) := by
    intro k v o b1 b2 hn
    cases v with
    | vnull =>
      simp only [encodeEntry, withReadable_readable]
      exact hkey k o b1 b2 .vnull
    | vundefined =>
      simp only [encodeEntry, withReadable_readable]
      exact hkey k o b1 b2 .vundefined
    | vbool b =>
      simp only [encodeEntry, withReadable_readable]
      exact hkey k o b1 b2 (.vbool b)
    | vnum m =>
      simp only [encodeEntry, withReadable_readable]
      exact hkey k o b1 b2 (.vnum m)
    | vstr str =>
      simp only [encodeEntry, withReadable_readable]
      exact hkey k o b1 b2 (.vstr str)
    | varr a =>
      have ha : sizeOf a < n := by
        simp only [Value.varr.sizeOf_spec] at hn
        omega
      have harr : SpRel (encodeArray a k (withReadable o b1))
          (encodeArray a k (withReadable o b2)) :=
        (ih (sizeOf a) ha).2.2.1 a k o b1 b2 le_rfl
      simp only [encodeEntry]
      have hheur : tabularBlockHeuristic (encodeArray a k (withReadable o b1)) =
          tabularBlockHeuristic (encodeArray a k (withReadable o b2)) := by
        rw [tabularBlockHeuristic, tabularBlockHeuristic,
          SpRel_contains harr '\n' (by decide),
          SpRel_contains harr '\x7b' (by decide),
          containsSubstr_brace_colon, containsSubstr_brace_colon, harr.2]
      by_cases hh : tabularBlockHeuristic (encodeArray a k (withReadable o b2)) = true
      · rw [if_pos (hheur.trans hh), if_pos hh]
        exact harr
      · have hh1 : ¬ tabularBlockHeuristic (encodeArray a k (withReadable o b1)) = true := by
          rw [hheur]; exact hh
        rw [if_neg hh1, if_neg hh]
        exact SpRel_append_bf SpRel.refl harr (lastIs_encodedKeyStr k)
          (lastIs_encodedKeyStr k)
    | vobj m =>
      have hm : sizeOf m < n := by
        simp only [Value.vobj.sizeOf_spec] at hn
        omega
      have hobj : SpRel (encodeObject m (withReadable o b1))
          (encodeObject m (withReadable o b2)) :=
        (ih (sizeOf m) hm).2.2.2.1 m o b1 b2 le_rfl
      simp only [encodeEntry]
      by_cases hme : m = []
      · subst hme
        have h1 : encodeObject [] (withReadable o b1) = "" :=
          (encodeObject_eq_empty_iff _ _).mpr rfl
        have h2 : encodeObject [] (withReadable o b2) = "" :=
          (encodeObject_eq_empty_iff _ _).mpr rfl
        rw [h1, h2]
        exact SpRel.refl
      · have hne1 : encodeObject m (withReadable o b1) ≠ "" :=
          fun e => hme ((encodeObject_eq_empty_iff _ _).mp e)
        have hne2 : encodeObject m (withReadable o b2) ≠ "" :=
          fun e => hme ((encodeObject_eq_empty_iff _ _).mp e)
        rw [if_neg (by simp [hne1]), if_neg (by simp [hne2])]
        apply SpRel_append_hf
        · apply SpRel_append_bf
          · exact SpRel.refl
          · exact hobj
          · exact lastIs_keybrace k
          · exact lastIs_keybrace k
        · exact SpRel.refl
        · decide
        · decide
  have hB : ∀ (arr : List Value) (o : EncodeOptions) (b1 b2 : Bool),
      sizeOf arr ≤ n →
      List.Forall₂ SpRel (encodeListParts arr (withReadable o b1))
        (encodeListParts arr (withReadable o b2)) := by
    intro arr o b1 b2 hn
    cases arr with
    | nil =>
      simp only [encodeListParts]
      exact List.Forall₂.nil
    | cons x xs =>
      have hxs : sizeOf xs < n := by
        simp only [List.cons.sizeOf_spec] at hn
        have hx1 : 1 ≤ sizeOf x := by
          cases x <;> simp
        omega
      have htail := (ih (sizeOf xs) hxs).1 xs o b1 b2 le_rfl
      cases x with
      | varr a =>
        have ha : sizeOf a < n := by
          simp only [List.cons.sizeOf_spec, Value.varr.sizeOf_spec] at hn
          omega
        simp only [encodeListParts]
        exact List.Forall₂.cons ((ih (sizeOf a) ha).2.2.1 a "" o b1 b2 le_rfl) htail
      | vobj m =>
        have hm : sizeOf m < n := by
          simp only [List.cons.sizeOf_spec, Value.vobj.sizeOf_spec] at hn
          omega
        simp only [encodeListParts]
        refine List.Forall₂.cons ?_ htail
        apply SpRel_append_hf
        · apply SpRel_append_bf
          · exact SpRel.refl
          · exact (ih (sizeOf m) hm).2.2.2.1 m o b1 b2 le_rfl
          · decide
          · decide
        · exact SpRel.refl
        · decide
        · decide
      | vnull =>
        simp only [encodeListParts]
        exact List.Forall₂.cons (hprim .vnull o b1 b2) htail
      | vundefined =>
        simp only [encodeListParts]
        exact List.Forall₂.cons (hprim .vundefined o b1 b2) htail
      | vbool b =>
        simp only [encodeListParts]
        exact List.Forall₂.cons (hprim (.vbool b) o b1 b2) htail
      | vnum m =>
        simp only [encodeListParts]
        exact List.Forall₂.cons (hprim (.vnum m) o b1 b2) htail
      | vstr str =>
        simp only [encodeListParts]
        exact List.Forall₂.cons (hprim (.vstr str) o b1 b2) htail
  have hC : ∀ (ents : List (String × Value)) (o : EncodeOptions) (b1 b2 : Bool),
      sizeOf ents ≤ n →
      List.Forall₂ SpRel (encodePairs ents (withReadable o b1))
        (encodePairs ents (withReadable o b2)) := by
    intro ents o b1 b2 hn
    cases ents with
    | nil =>
      simp only [encodePairs]
      exact List.Forall₂.nil
    | cons e rest =>
      rcases e with ⟨k, v⟩
      have hv : sizeOf v < n := by
        simp only [List.cons.sizeOf_spec, Prod.mk.sizeOf_spec] at hn
        omega
      have hrest : sizeOf rest < n := by
        simp only [List.cons.sizeOf_spec, Prod.mk.sizeOf_spec] at hn
        omega
      simp only [encodePairs]
      exact List.Forall₂.cons ((ih (sizeOf v) hv).2.2.2.2 k v o b1 b2 le_rfl)
        ((ih (sizeOf rest) hrest).2.1 rest o b1 b2 le_rfl)
  have hA : ∀ (arr : List Value) (kn : String) (o : EncodeOptions) (b1 b2 : Bool),
      sizeOf arr ≤ n →
      SpRel (encodeArray arr kn (withReadable o b1))
        (encodeArray arr kn (withReadable o b2)) := by
    intro arr kn o b1 b2 hn
    have hparts := hB arr o b1 b2 hn
    simp only [encodeArray, withReadable_tabular, withReadable_flatten]
    by_cases hemp : arr.isEmpty = true
    · rw [if_pos hemp, if_pos hemp]
      exact SpRel.refl
    · rw [if_neg hemp, if_neg hemp]
      by_cases htab : o.tabular = true
      · rw [if_pos htab, if_pos htab]
        by_cases hfl : (o.flatten && arr.all isPlainObjectB) = true
        · rw [if_pos hfl, if_pos hfl]
          exact SpRel.of_eq ((encodeTabularArray_wr _ _ kn o b1).trans
            (encodeTabularArray_wr _ _ kn o b2).symm)
        · rw [if_neg hfl, if_neg hfl]
          rcases hu : isUniformObjectArray arr with ⟨iu, ks⟩
          cases iu with
          | true =>
            cases ks with
            | some l =>
              exact SpRel.of_eq ((encodeTabularArray_wr _ _ kn o b1).trans
                (encodeTabularArray_wr _ _ kn o b2).symm)
            | none => exact SpRel_listForm arr o b1 b2 hparts
          | false =>
            cases ks with
            | some l => exact SpRel_listForm arr o b1 b2 hparts
            | none => exact SpRel_listForm arr o b1 b2 hparts
      · rw [if_neg htab, if_neg htab]
        exact SpRel_listForm arr o b1 b2 hparts
  have hD : ∀ (ents : List (String × Value)) (o : EncodeOptions) (b1 b2 : Bool),
      sizeOf ents ≤ n →
      SpRel (encodeObject ents (withReadable o b1))
        (encodeObject ents (withReadable o b2)) := by
    intro ents o b1 b2 hn
    have hpairs := hC ents o b1 b2 hn
    simp only [encodeObject, withReadable_readable]
    by_cases hemp : ents.isEmpty = true
    · rw [if_pos hemp, if_pos hemp]
      exact SpRel.refl
    · rw [if_neg hemp, if_neg hemp]
      exact SpRel_joinSep _ _ hpairs _ _ (SpRel_sep b1 b2) (sep_headIs b1)
        (sep_headIs b2) (sep_lastIs b1) (sep_lastIs b2) (sep_ne b1) (sep_ne b2)
  exact ⟨hB, hC, hA, hD, hE⟩


/-- Claim C8: enabling `readable` changes only whitespace placement — for
every value and every option record, stripping all ASCII spaces from the
readable encoding and from the non-readable encoding yields identical
strings. -/
theorem claimC8 (v : Value) (o : EncodeOptions) :
    stripSpaces (encode v (withReadable o true)) =
      stripSpaces (encode v (withReadable o false)) := by
  cases v with
  | vnull => rfl
  | vundefined => rfl
  | vbool b =>
    show stripSpaces (encodePrimitive (.vbool b) (withReadable o true)) =
      stripSpaces (encodePrimitive (.vbool b) (withReadable o false))
    rw [encodePrimitive_wr]
  | vnum m =>
    show stripSpaces (encodePrimitive (.vnum m) (withReadable o true)) =
      stripSpaces (encodePrimitive (.vnum m) (withReadable o false))
    rw [encodePrimitive_wr]
  | vstr s =>
    show stripSpaces (encodePrimitive (.vstr s) (withReadable o true)) =
      stripSpaces (encodePrimitive (.vstr s) (withReadable o false))
    rw [encodePrimitive_wr]
  | varr l =>
    have h := (spRel_master (sizeOf l)).2.2.1 l "" o true false le_rfl
    show stripSpaces (encodeArray l "" (withReadable o true)) =
      stripSpaces (encodeArray l "" (withReadable o false))
    exact congrArg String.mk h.1
  | vobj m =>
    have h := (spRel_master (sizeOf m)).2.2.2.1 m o true false le_rfl
    show stripSpaces (encodeObject m (withReadable o true)) =
      stripSpaces (encodeObject m (withReadable o false))
    exact congrArg String.mk h.1

end Toon
